import Mathlib

/-!
# Verification of the `code-patcher` matching engine

Shallow embedding of the TypeScript sources of the repository:

* `src/src/codePatcher.ts`  — fixed-window engine with a ±1 length-adjusted
  pass (namespace `CP1` below);
* `src/code-patcher.ts`     — fixed-window engine behind the legacy
  `<<<<<<< SEARCH` parser (namespace `CP2`);
* `src/unnamed/part_000`    — variable-window, context-anchored engine
  (namespace `SP`);
* `src/unnamed/part_001`    — duplicates the `CP2` engine; its
  `parseLegacyFormat` is character-for-character the parser of `CP2` and is
  embedded once as `CodePatch.parseLegacyFormat`.

Texts are lists of characters, JS numbers appearing in the scoring are
embedded as rationals, and JS functions that can throw are embedded in
`Except Unit`.
-/

namespace CodePatch

/-- A JS string, as the list of its characters. -/
abbrev Text := List Char

/-- JS `String.prototype.trim`: drop leading and trailing whitespace. -/
def trimL (s : Text) : Text :=
  ((s.dropWhile Char.isWhitespace).reverse.dropWhile Char.isWhitespace).reverse

/-- JS `str.split('\n')`.  Always returns at least one (possibly empty) line. -/
def splitLines : Text → List Text
  | [] => [[]]
  | c :: cs =>
    if c = '\n' then [] :: splitLines cs
    else
      match splitLines cs with
      | [] => [[c]]
      | l :: ls => (c :: l) :: ls

/-- JS `lines.join('\n')`. -/
def joinLines : List Text → Text
  | [] => []
  | [l] => l
  | l :: ls => l ++ '\n' :: joinLines ls

/-- JS `list.join(sep)` for an arbitrary separator. -/
def joinWith (sep : Text) : List Text → Text
  | [] => []
  | [l] => l
  | l :: ls => l ++ sep ++ joinWith sep ls

/-- JS `arr.slice(a, b)` for `0 ≤ a ≤ b` (clamping at the length). -/
def sliceJS (l : List α) (a b : Nat) : List α := (l.drop a).take (b - a)

/-- JS `arr.splice(start, deleteCount, ...items)` (result array, for
non-negative arguments; both are clamped to the array bounds as in JS). -/
def spliceJS (l : List α) (start delCount : Nat) (items : List α) : List α :=
  let start' := min start l.length
  let delCount' := min delCount (l.length - start')
  l.take start' ++ items ++ l.drop (start' + delCount')

/-- `detectIndent`: the leading whitespace run of a line
(the regex match `^(\s+)`, or `''`). -/
def detectIndent (line : Text) : Text := line.takeWhile Char.isWhitespace

/-- One row-extension step of the `levenshteinDistance` DP matrix:
given the remaining characters of `str1`, the remaining entries of the
previous row, the diagonal entry `matrix[i-1][j-1]` and the entry
`matrix[i][j-1]` just written, produce the entries `matrix[i][j...]`. -/
def levRowStep (c2 : Char) : Text → List Nat → Nat → Nat → List Nat
  | [], _, _, _ => []
  | _ :: _, [], _, _ => []
  | x :: xs, p :: ps, diag, left =>
    let cur := if x = c2 then diag else min (diag + 1) (min (left + 1) (p + 1))
    cur :: levRowStep c2 xs ps p cur

/-- Fold the DP rows of `levenshteinDistance` over the characters of `str2`;
`row` is the finished row `matrix[i]`, whose head is `i`. -/
def levRows (s1 : Text) : Text → List Nat → List Nat
  | [], row => row
  | c2 :: rest, row =>
    levRows s1 rest
      ((row.headD 0 + 1) :: levRowStep c2 s1 row.tail (row.headD 0) (row.headD 0 + 1))

/-- `levenshteinDistance(str1, str2)`: the value `matrix[str2.length][str1.length]`
of the DP matrix built row by row in the source (base row `matrix[0][j] = j`,
base column `matrix[i][0] = i`, diagonal reuse on equal characters, otherwise
`1 + min` of the three neighbours). -/
def levenshteinDistance (str1 str2 : Text) : Nat :=
  (levRows str1 str2 (List.range (str1.length + 1))).getLastD 0

/-- `similarityRatio(str1, str2) = 1 - distance/maxLen`, and `1.0` when both
strings are empty. -/
def similarityRatio (str1 str2 : Text) : ℚ :=
  let maxLen := max str1.length str2.length
  if maxLen = 0 then 1
  else 1 - (levenshteinDistance str1 str2 : ℚ) / (maxLen : ℚ)

/-- `linesSimilarity`: average per-line similarity over the overlapping
prefix; on a length mismatch the average is scaled by
`1 - ((maxLen - minLen)/maxLen) * 0.5`. -/
def linesSimilarity (lines1 lines2 : List Text) : ℚ :=
  let totalSim : ℚ := (List.zipWith similarityRatio lines1 lines2).sum
  if lines1.length ≠ lines2.length then
    let maxLen : ℚ := (max lines1.length lines2.length : Nat)
    let minLen : ℚ := (min lines1.length lines2.length : Nat)
    let lengthPenalty : ℚ := 1 - ((maxLen - minLen) / maxLen) * (1/2)
    let minLines : ℚ := (min lines1.length lines2.length : Nat)
    (totalSim / minLines) * lengthPenalty
  else
    totalSim / (lines1.length : ℚ)

/-- `normalizeLines`: trim every line. -/
def normalizeLines (lines : List Text) : List Text := lines.map trimL

/-- `linesMatch` (array form of `CP1`/`CP2`): equal length and pointwise
equal entries, i.e. list equality. -/
def linesMatchArr (lines1 lines2 : List Text) : Bool := lines1 == lines2

/-- `calculateConfidence` of `CP1`/`CP2` (identical in both files): exact
normalized match scores `(1, 1)`; with fuzzy matching off everything else
scores `(0, 0)`; otherwise the line similarity minus an additive
`0.1 * |Δlength|` penalty (clamped at `0`), paired with the raw similarity. -/
def calculateConfidence (originalLines searchLines : List Text) (fuzzy : Bool) :
    ℚ × ℚ :=
  let normalizedOriginal := normalizeLines originalLines
  let normalizedSearch := normalizeLines searchLines
  if linesMatchArr normalizedOriginal normalizedSearch then (1, 1)
  else if !fuzzy then (0, 0)
  else
    let similarity := linesSimilarity normalizedOriginal normalizedSearch
    let lengthDiff : Nat := ((originalLines.length : ℤ) - (searchLines.length : ℤ)).natAbs
    let lengthPenalty : ℚ := if 0 < lengthDiff then (1/10) * (lengthDiff : ℚ) else 0
    (max 0 (similarity - lengthPenalty), similarity)

/-- The `Match` record of `CP1`/`CP2`. -/
structure Match where
  startLine : Nat
  endLine : Nat
  baseIndent : Text
  confidence : ℚ
  contextBefore : List Text
  contextAfter : List Text
  similarity : ℚ
deriving DecidableEq

/-- The `PatchResult` record of `CP1`/`CP2` (`matches'` embeds the field
named `matches` in the source; `matches` is a reserved word in Lean). -/
structure PatchResult where
  success : Bool
  matches' : List Match
  error : Option String := none
deriving DecidableEq

/-- The `PatchOptions` record; a missing field means "use the variant's
default" (the `{...defaults, ...options}` spread). -/
structure PatchOptions where
  fuzzyMatch : Option Bool := none
  minConfidence : Option ℚ := none
  contextLines : Option Nat := none
deriving DecidableEq

/-- Construction of one `Match` at window `[i, i+len)` as in the
`matches.push({...})` of `CP1.findMatches`/`CP2.findMatches`
(`baseIndent` comes from the first slice line, context is `contextLines`
lines of surrounding text). -/
def mkMatch (fileLines : List Text) (ctx : Nat) (i len : Nat) (conf sim : ℚ) :
    Match :=
  let slice := sliceJS fileLines i (i + len)
  { startLine := i
    endLine := i + len
    baseIndent := detectIndent (slice.headD [])
    confidence := conf
    similarity := sim
    contextBefore := sliceJS fileLines (i - ctx) i
    contextAfter := sliceJS fileLines (i + len) (min fileLines.length (i + len + ctx)) }

/-- One sliding pass of the fixed-window search: every start offset `i` with
`i + len ≤ fileLines.length` is scored by `calculateConfidence` and kept when
the confidence reaches `thresh`. -/
def windowPass (fileLines blockLines : List Text) (fuzzy : Bool) (ctx : Nat)
    (len : Nat) (thresh : ℚ) : List Match :=
  (List.range (fileLines.length + 1 - len)).filterMap (fun i =>
    let slice := sliceJS fileLines i (i + len)
    let cs := calculateConfidence slice blockLines fuzzy
    if thresh ≤ cs.1 then some (mkMatch fileLines ctx i len cs.1 cs.2) else none)

/-- Helper of `keepFirstBy`: keep the elements whose key has not been seen
before (`seen` collects the kept elements so far). -/
def keepFirstByAux (same : α → α → Bool) (seen : List α) : List α → List α
  | [] => []
  | m :: ms =>
    if seen.any (fun s => same m s) then keepFirstByAux same seen ms
    else m :: keepFirstByAux same (m :: seen) ms

/-- The JS idiom
`xs.filter((m, i, self) => i === self.findIndex(x => same x m))` for a
key-equality predicate `same`: keep only the first occurrence of each key. -/
def keepFirstBy (same : α → α → Bool) (l : List α) : List α :=
  keepFirstByAux same [] l

/-- Stable insertion: place `a` before the first element `b` with `le a b`. -/
def insertSorted (le : α → α → Bool) (a : α) : List α → List α
  | [] => [a]
  | b :: l => if le a b then a :: b :: l else b :: insertSorted le a l

/-- Stable sort with respect to the comparator-induced relation `le`
(`le a b` means the JS comparator lets `a` come before `b`).  For a
consistent comparator every stable sort — in particular the engines'
`Array.prototype.sort` — produces this very list. -/
def stableSort (le : α → α → Bool) : List α → List α
  | [] => []
  | a :: l => insertSorted le a (stableSort le l)

/-- `(m, m') => m.startLine === m'.startLine && m.endLine === m'.endLine`. -/
def sameRange (a b : Match) : Bool :=
  a.startLine == b.startLine && a.endLine == b.endLine

/-- JS stable `Array.prototype.sort` with the comparator
`(a, b) => b.confidence - a.confidence`. -/
def sortByConfidence (ms : List Match) : List Match :=
  stableSort (fun a b => decide (b.confidence ≤ a.confidence)) ms

end CodePatch

namespace CodePatch

/-- `(q * 100).toFixed(1)` rendering used only inside preview headers. -/
def toFixed1Percent (q : ℚ) : Text :=
  let t : Int := round (q * 1000)
  (if t < 0 then ['-'] else []) ++
    Nat.toDigits 10 (t.natAbs / 10) ++ ['.'] ++ Nat.toDigits 10 (t.natAbs % 10)

/-- `if (line.trim() === '') return line; return baseIndent + line.trim();` —
the reindenting applied to every replacement line. -/
def reindent (ind : Text) (line : Text) : Text :=
  if trimL line = [] then line else ind ++ trimL line

namespace CP1

/-- `src/src/codePatcher.ts` `findMatches`: exact-length pass at threshold
`minConfidence` (default `0.6`), then the `±1` length-adjusted passes at
threshold `minConfidence + 0.05` (the `-1` pass only when the adjusted length
is positive), deduplicated by `(startLine, endLine)` keeping the first
occurrence, and stably sorted by descending confidence. -/
def findMatches (fileContent codeBlock : Text) (opts : PatchOptions) :
    List Match :=
  let fuzzy := opts.fuzzyMatch.getD true
  let minC := opts.minConfidence.getD (3/5)
  let ctx := opts.contextLines.getD 2
  let fileLines := splitLines fileContent
  let blockLines := splitLines (trimL codeBlock)
  if blockLines.length = 0 then []
  else
    let exactPass := windowPass fileLines blockLines fuzzy ctx blockLines.length minC
    let minusPass :=
      if 0 < blockLines.length - 1 then
        windowPass fileLines blockLines fuzzy ctx (blockLines.length - 1) (minC + 1/20)
      else []
    let plusPass :=
      windowPass fileLines blockLines fuzzy ctx (blockLines.length + 1) (minC + 1/20)
    sortByConfidence (keepFirstBy sameRange (exactPass ++ (minusPass ++ plusPass)))

/-- `src/src/codePatcher.ts` `applyReplacement`: reindent the (trimmed)
block's lines to `match.baseIndent` and splice them over
`[startLine, endLine)`. -/
def applyReplacement (fileContent : Text) (m : Match) (codeBlock : Text) :
    Text :=
  let fileLines := splitLines fileContent
  let blockLines := splitLines (trimL codeBlock)
  let indentedBlock := blockLines.map (reindent m.baseIndent)
  joinLines (spliceJS fileLines m.startLine (m.endLine - m.startLine) indentedBlock)

/-- Error text of the empty-block branch of `CP1.patch`. -/
def emptyBlockMsg : String := "Empty code block provided"

/-- Error text of the no-match branch of `CP1.patch`. -/
def noMatchMsg : String :=
  "No matches found. Try including more context lines or lowering minConfidence setting."

/-- `src/src/codePatcher.ts` `patch`. -/
def patch (fileContent codeBlock : Text) (opts : PatchOptions) : PatchResult :=
  if trimL codeBlock = [] then
    { success := false, matches' := [], error := some emptyBlockMsg }
  else
    let ms := findMatches fileContent (trimL codeBlock) opts
    if ms.length = 0 then
      { success := false, matches' := [], error := some noMatchMsg }
    else
      { success := true, matches' := ms }

/-- `src/src/codePatcher.ts` `applyPatch`; the only unchecked path is a
negative `matchIndex`, where `result.matches[matchIndex]` is `undefined` and
the property accesses inside `applyReplacement` throw (`Except.error ()`). -/
def applyPatch (fileContent codeBlock : Text) (matchIndex : Int)
    (opts : PatchOptions) : Except Unit (Option Text) :=
  let result := patch fileContent codeBlock opts
  if !result.success || result.matches'.length == 0 then Except.ok none
  else if (result.matches'.length : Int) ≤ matchIndex then Except.ok none
  else if matchIndex < 0 then Except.error ()
  else
    match result.matches'.get? matchIndex.toNat with
    | some m => Except.ok (some (applyReplacement fileContent m codeBlock))
    | none => Except.error ()

/-- `src/src/codePatcher.ts` `previewPatch`; same guard structure, same
negative-index hole. -/
def previewPatch (fileContent codeBlock : Text) (matchIndex : Int)
    (opts : PatchOptions) : Except Unit (Option Text) :=
  let result := patch fileContent codeBlock opts
  if !result.success || result.matches'.length == 0
      || (result.matches'.length : Int) ≤ matchIndex then Except.ok none
  else if matchIndex < 0 then Except.error ()
  else
    match result.matches'.get? matchIndex.toNat with
    | none => Except.error ()
    | some m =>
      let fileLines := splitLines fileContent
      let blockLines := splitLines (trimL codeBlock)
      let header :=
        "Match at lines ".toList ++ Nat.toDigits 10 (m.startLine + 1) ++ ['-'] ++
          Nat.toDigits 10 m.endLine ++ " (confidence: ".toList ++
          toFixed1Percent m.confidence ++ "%, similarity: ".toList ++
          toFixed1Percent m.similarity ++ "%)\n\n".toList
      let ctxB :=
        if 0 < m.contextBefore.length then
          "  ".toList ++ joinWith "\n  ".toList m.contextBefore ++ ['\n']
        else []
      let removed := sliceJS fileLines m.startLine m.endLine
      let removedPart := joinWith ['\n'] (removed.map (fun l => "- ".toList ++ l)) ++ ['\n']
      let indentedBlock := blockLines.map (reindent m.baseIndent)
      let addedPart := joinWith ['\n'] (indentedBlock.map (fun l => "+ ".toList ++ l)) ++ ['\n']
      let ctxA :=
        if 0 < m.contextAfter.length then
          "  ".toList ++ joinWith "\n  ".toList m.contextAfter ++ ['\n']
        else []
      Except.ok (some (header ++ ctxB ++ removedPart ++ addedPart ++ ctxA))

end CP1

end CodePatch

namespace CodePatch

/-- The parsed `{ search, replace }` pair. -/
structure PatchInput where
  search : Text
  replace : Text
deriving DecidableEq

/-- The literal `'<<<<<<< SEARCH'` marker. -/
def searchMarker : Text := "<<<<<<< SEARCH".toList

/-- The literal `'======='` marker. -/
def dividerMarker : Text := "=======".toList

/-- The literal `'>>>>>>> REPLACE'` marker. -/
def replaceMarker : Text := ">>>>>>> REPLACE".toList

/-- JS `s.indexOf(pat)`, as an `Option`: the least index at which `pat`
occurs in `s`, if any. -/
def firstIdx (pat : Text) : Text → Option Nat
  | [] => if pat.isEmpty then some 0 else none
  | c :: cs =>
    if pat.isPrefixOf (c :: cs) then some 0 else (firstIdx pat cs).map (· + 1)

/-- JS `s.includes(pat)`. -/
def includesJS (s pat : Text) : Bool := (firstIdx pat s).isSome

/-- JS `s.indexOf(pat)` where the caller has already checked `includes`
(defaulting to `0` on the impossible missing case). -/
def indexOfD (s pat : Text) : Nat := (firstIdx pat s).getD 0

/-- JS `String.prototype.substring(a, b)`: clamps both indices to the string
length and swaps them when `a > b`. -/
def substringJS (s : Text) (a b : Nat) : Text :=
  let a' := min a s.length
  let b' := min b s.length
  (s.drop (min a' b')).take (max a' b' - min a' b')

/-- `parseLegacyFormat` of `src/unnamed/part_001`, character-for-character the
`parsePatchInput` of `src/code-patcher.ts`: require the three markers to be
present (`includes`), then cut at the first occurrence of each marker with
`substring` and trim.  No ordering check is performed. -/
def parseLegacyFormat (input : Text) : Option PatchInput :=
  if !includesJS input searchMarker || !includesJS input dividerMarker
      || !includesJS input replaceMarker then none
  else
    let searchStart := indexOfD input searchMarker + searchMarker.length
    let dividerPos := indexOfD input dividerMarker
    let replaceStart := dividerPos + dividerMarker.length
    let replaceEnd := indexOfD input replaceMarker
    some { search := trimL (substringJS input searchStart dividerPos)
           replace := trimL (substringJS input replaceStart replaceEnd) }

namespace CP2

/-- `src/code-patcher.ts` `parsePatchInput` (the legacy triple only). -/
def parsePatchInput (input : Text) : Option PatchInput := parseLegacyFormat input

/-- `src/code-patcher.ts` `findMatches`: a single exact-length sliding pass at
threshold `minConfidence` (default `0.7`, no deduplication needed since every
start offset is visited once), stably sorted by descending confidence.  Note
that the search block is split without trimming. -/
def findMatches (fileContent searchBlock : Text) (opts : PatchOptions) :
    List Match :=
  let fuzzy := opts.fuzzyMatch.getD true
  let minC := opts.minConfidence.getD (7/10)
  let ctx := opts.contextLines.getD 2
  let fileLines := splitLines fileContent
  let searchLines := splitLines searchBlock
  sortByConfidence (windowPass fileLines searchLines fuzzy ctx searchLines.length minC)

/-- `src/code-patcher.ts` `applyReplacement` (the replacement block is split
without trimming). -/
def applyReplacement (fileContent : Text) (m : Match) (replaceBlock : Text) :
    Text :=
  let fileLines := splitLines fileContent
  let replaceLines := splitLines replaceBlock
  let indentedReplace := replaceLines.map (reindent m.baseIndent)
  joinLines (spliceJS fileLines m.startLine (m.endLine - m.startLine) indentedReplace)

/-- Error text of the unparsable-input branch of `CP2.patch`. -/
def badFormatMsg : String :=
  "Invalid patch format. Expected <<<<<<< SEARCH ... ======= ... >>>>>>> REPLACE"

/-- Error text of the no-match branch of `CP2.patch`. -/
def noMatchMsg : String :=
  "No matches found for search block (try enabling fuzzy matching or lowering minConfidence)"

/-- `src/code-patcher.ts` `patch`: parse, then search on the parsed `search`
body.  There is no emptiness check on the parsed search block. -/
def patch (fileContent patchInput : Text) (opts : PatchOptions) : PatchResult :=
  match parsePatchInput patchInput with
  | none => { success := false, matches' := [], error := some badFormatMsg }
  | some parsed =>
    let ms := findMatches fileContent parsed.search opts
    if ms.length = 0 then
      { success := false, matches' := [], error := some noMatchMsg }
    else
      { success := true, matches' := ms }

/-- `src/code-patcher.ts` `applyPatch`; out-of-bounds is only checked
upwards, a negative `matchIndex` dereferences `undefined` and throws. -/
def applyPatch (fileContent patchInput : Text) (matchIndex : Int)
    (opts : PatchOptions) : Except Unit (Option Text) :=
  let result := patch fileContent patchInput opts
  if !result.success || result.matches'.length == 0 then Except.ok none
  else if (result.matches'.length : Int) ≤ matchIndex then Except.ok none
  else if matchIndex < 0 then Except.error ()
  else
    match result.matches'.get? matchIndex.toNat, parsePatchInput patchInput with
    | some m, some parsed =>
      Except.ok (some (applyReplacement fileContent m parsed.replace))
    | _, _ => Except.error ()

/-- `src/code-patcher.ts` `previewPatch`. -/
def previewPatch (fileContent patchInput : Text) (matchIndex : Int)
    (opts : PatchOptions) : Except Unit (Option Text) :=
  let result := patch fileContent patchInput opts
  if !result.success || result.matches'.length == 0
      || (result.matches'.length : Int) ≤ matchIndex then Except.ok none
  else if matchIndex < 0 then Except.error ()
  else
    match result.matches'.get? matchIndex.toNat, parsePatchInput patchInput with
    | some m, some parsed =>
      let fileLines := splitLines fileContent
      let replaceLines := splitLines parsed.replace
      let header :=
        "Match at lines ".toList ++ Nat.toDigits 10 (m.startLine + 1) ++ ['-'] ++
          Nat.toDigits 10 m.endLine ++ " (confidence: ".toList ++
          toFixed1Percent m.confidence ++ "%, similarity: ".toList ++
          toFixed1Percent m.similarity ++ "%)\n\n".toList
      let ctxB :=
        if 0 < m.contextBefore.length then
          "  ".toList ++ joinWith "\n  ".toList m.contextBefore ++ ['\n']
        else []
      let removed := sliceJS fileLines m.startLine m.endLine
      let removedPart := joinWith ['\n'] (removed.map (fun l => "- ".toList ++ l)) ++ ['\n']
      let indentedReplace := replaceLines.map (reindent m.baseIndent)
      let addedPart := joinWith ['\n'] (indentedReplace.map (fun l => "+ ".toList ++ l)) ++ ['\n']
      let ctxA :=
        if 0 < m.contextAfter.length then
          "  ".toList ++ joinWith "\n  ".toList m.contextAfter ++ ['\n']
        else []
      Except.ok (some (header ++ ctxB ++ removedPart ++ addedPart ++ ctxA))
    | _, _ => Except.error ()

end CP2

end CodePatch

namespace CodePatch

/-- The `Match` record of `src/unnamed/part_000`, which additionally carries
`contextMatchLength`. -/
structure SPMatch where
  startLine : Nat
  endLine : Nat
  baseIndent : Text
  confidence : ℚ
  contextBefore : List Text
  contextAfter : List Text
  similarity : ℚ
  contextMatchLength : Nat
deriving DecidableEq

/-- The `PatchResult` record of `src/unnamed/part_000` (with a `debug`
channel); `matches'` embeds the source field `matches`. -/
structure SPResult where
  success : Bool
  matches' : List SPMatch
  error : Option String := none
  debug : Option Text := none
deriving DecidableEq

namespace SP

/-- `normalizeLine`: trim. -/
def normalizeLine (line : Text) : Text := trimL line

/-- `linesMatch(line1, line2, fuzzy)` of `part_000`: normalized equality, or
(with fuzzy on) similarity at least `0.9`. -/
def lineMatches (line1 line2 : Text) (fuzzy : Bool) : Bool :=
  let norm1 := normalizeLine line1
  let norm2 := normalizeLine line2
  if norm1 == norm2 then true
  else if fuzzy then decide ((9/10 : ℚ) ≤ similarityRatio norm1 norm2)
  else false

/-- Length of the run of consecutive indices `i, i+1, ...` (at most `fuel`
many) on which `f` holds — the `for`/`break` counting loops of
`findCommonPrefix`/`findCommonSuffix`. -/
def runLen (f : Nat → Bool) : Nat → Nat → Nat
  | _, 0 => 0
  | i, fuel + 1 => if f i then runLen f (i + 1) fuel + 1 else 0

/-- `findCommonPrefix`: how many leading block lines line-match the file
starting at `startIndex`, stopping at the first mismatch
(`maxCheck = min(blockLines.length, fileLines.length - startIndex)`). -/
def findCommonPrefix (blockLines fileLines : List Text) (startIndex : Nat)
    (fuzzy : Bool) : Nat :=
  let maxCheck := min blockLines.length (fileLines.length - startIndex)
  runLen (fun i => lineMatches (blockLines.getD i []) (fileLines.getD (startIndex + i) []) fuzzy)
    0 maxCheck

/-- `findCommonSuffix`: how many trailing block lines line-match the file
ending at `endIndex`, stopping at the first mismatch (the loop bound is
`min(blockLines.length - 1, endIndex)`, inclusive; `blockLines` is never
empty at the call sites). -/
def findCommonSuffix (blockLines fileLines : List Text) (endIndex : Nat)
    (fuzzy : Bool) : Nat :=
  let blockEnd := blockLines.length - 1
  runLen
    (fun i => lineMatches (blockLines.getD (blockEnd - i) []) (fileLines.getD (endIndex - i) []) fuzzy)
    0 (min blockEnd endIndex + 1)

/-- `normalizeLineEndings`: CRLF and bare CR become LF. -/
def normalizeLineEndings : Text → Text
  | [] => []
  | '\r' :: '\n' :: rest => '\n' :: normalizeLineEndings rest
  | '\r' :: rest => '\n' :: normalizeLineEndings rest
  | c :: rest => c :: normalizeLineEndings rest

/-- Construction of one `part_000` match at window
`[fileStart, fileStart + windowSize)`. -/
def mkSPMatch (fileLines : List Text) (ctx : Nat) (fileStart windowSize : Nat)
    (conf : ℚ) (cml : Nat) : SPMatch :=
  { startLine := fileStart
    endLine := fileStart + windowSize
    baseIndent := detectIndent (fileLines.getD fileStart [])
    confidence := conf
    similarity := conf
    contextBefore := sliceJS fileLines (fileStart - ctx) fileStart
    contextAfter :=
      sliceJS fileLines (fileStart + windowSize)
        (min fileLines.length (fileStart + windowSize + ctx))
    contextMatchLength := cml }

/-- The inner `for (fileStart ...)` loop of `part_000` `findMatches` at one
window size: a candidate is kept when `contextMatchLength ≥ 2`, one side
matched at least one line, and the scored confidence reaches
`minConfidence`. -/
def windowPass (fileLines blockLines : List Text) (fuzzy : Bool) (minC : ℚ)
    (ctx : Nat) (windowSize : Nat) : List SPMatch :=
  (List.range (fileLines.length + 1 - windowSize)).filterMap (fun fileStart =>
    let prefixCount := findCommonPrefix blockLines fileLines fileStart fuzzy
    let suffixCount := findCommonSuffix blockLines fileLines (fileStart + windowSize - 1) fuzzy
    let contextMatchLength := prefixCount + suffixCount
    if 2 ≤ contextMatchLength ∧ (1 ≤ prefixCount ∨ 1 ≤ suffixCount) then
      let contextScore : ℚ := min 1 ((contextMatchLength : ℚ) / (blockLines.length : ℚ))
      let sizeScore : ℚ := (windowSize : ℚ) / (blockLines.length : ℚ)
      let confidence : ℚ := min 1 (contextScore * (7/10) + sizeScore * (3/10))
      if minC ≤ confidence then
        some (mkSPMatch fileLines ctx fileStart windowSize confidence contextMatchLength)
      else none
    else none)

/-- The `matches.length > 0 && matches[0].confidence > 0.7` break test. -/
def breakEarly (ms : List SPMatch) : Bool :=
  match ms.head? with
  | some m => decide ((7/10 : ℚ) < m.confidence)
  | none => false

/-- The outer `for (windowSize = N; windowSize >= max(3, ⌊N/2⌋); windowSize--)`
loop of `part_000` `findMatches`; `fuel` counts the remaining iterations, so
the loop visits `ws, ws - 1, ..., ws - fuel + 1`.  After each pass the loop
breaks when the first accumulated match exceeds confidence `0.7`. -/
def windowLoop (fileLines blockLines : List Text) (fuzzy : Bool) (minC : ℚ)
    (ctx : Nat) : Nat → Nat → List SPMatch → List SPMatch
  | 0, _, acc => acc
  | fuel + 1, ws, acc =>
    let acc' := acc ++ windowPass fileLines blockLines fuzzy minC ctx ws
    if breakEarly acc' then acc'
    else windowLoop fileLines blockLines fuzzy minC ctx fuel (ws - 1) acc'

/-- `(m, m') => m.startLine === m'.startLine && m.endLine === m'.endLine`. -/
def sameRangeSP (a b : SPMatch) : Bool :=
  a.startLine == b.startLine && a.endLine == b.endLine

/-- The sort comparator of `part_000`: confidence descending when the
confidences differ by more than `0.1`, otherwise `contextMatchLength`
descending.  `rankLE a b` means the comparator lets `a` come before `b`. -/
def rankLE (a b : SPMatch) : Bool :=
  if (1/10 : ℚ) < |a.confidence - b.confidence| then
    decide (b.confidence ≤ a.confidence)
  else
    decide (b.contextMatchLength ≤ a.contextMatchLength)

/-- `part_000` `findMatches`: normalize line endings, walk window sizes from
the block length down to `max(3, ⌊N/2⌋)` with the early break, deduplicate by
`(startLine, endLine)` keeping the first occurrence, and stably sort with
`rankLE`. -/
def findMatches (fileContent codeBlock : Text) (opts : PatchOptions) :
    List SPMatch :=
  let fuzzy := opts.fuzzyMatch.getD true
  let minC := opts.minConfidence.getD (1/2)
  let ctx := opts.contextLines.getD 2
  let fileLines := splitLines (normalizeLineEndings fileContent)
  let blockLines := splitLines (normalizeLineEndings (trimL codeBlock))
  if blockLines.length = 0 then []
  else
    let minW := max 3 (blockLines.length / 2)
    let collected :=
      windowLoop fileLines blockLines fuzzy minC ctx
        (blockLines.length + 1 - minW) blockLines.length []
    stableSort rankLE (keepFirstBy sameRangeSP collected)

/-- Error text of the empty-block branch of `SP.patch`. -/
def emptyMsg : String := "Empty code block provided"

/-- Error text of the no-match branch of `SP.patch`. -/
def noMatchMsg : String := "No matches found. Try including more unique context lines."

/-- `part_000` `patch` (the no-match branch also reports a `debug` line). -/
def patch (fileContent codeBlock : Text) (opts : PatchOptions) : SPResult :=
  if trimL codeBlock = [] then
    { success := false, matches' := [], error := some emptyMsg }
  else
    let ms := findMatches fileContent (trimL codeBlock) opts
    if ms.length = 0 then
      let normalizedBlock := normalizeLineEndings (trimL codeBlock)
      let blockLines := splitLines normalizedBlock
      let debugMsg :=
        "Searched for ".toList ++ Nat.toDigits 10 blockLines.length ++
          " lines. First: \"".toList ++ (blockLines.headD []).take 40 ++
          "\", Last: \"".toList ++ (blockLines.getLastD []).take 40 ++ ['"']
      { success := false, matches' := [], error := some noMatchMsg,
        debug := some debugMsg }
    else
      { success := true, matches' := ms }

end SP

end CodePatch

namespace CodePatch

/-- Decidable equality for `Except` results (used to state the throw/return
behaviour of `applyPatch`/`previewPatch` on concrete inputs). -/
instance exceptDecEq {ε α : Type} [DecidableEq ε] [DecidableEq α] :
    DecidableEq (Except ε α) := fun x y =>
  match x, y with
  | Except.error a, Except.error b =>
    if h : a = b then Decidable.isTrue (h ▸ rfl)
    else Decidable.isFalse (fun hE => h (Except.noConfusion hE id))
  | Except.ok a, Except.ok b =>
    if h : a = b then Decidable.isTrue (h ▸ rfl)
    else Decidable.isFalse (fun hE => h (Except.noConfusion hE id))
  | Except.error _, Except.ok _ => Decidable.isFalse (fun hE => Except.noConfusion hE)
  | Except.ok _, Except.error _ => Decidable.isFalse (fun hE => Except.noConfusion hE)

/-- `dropWhile` is idempotent. -/
theorem dropWhile_dropWhile (p : Char → Bool) (l : Text) :
    (l.dropWhile p).dropWhile p = l.dropWhile p := by
  induction l with
  | nil => rfl
  | cons c cs ih =>
    by_cases h : p c
    · simp [List.dropWhile_cons, h, ih]
    · simp [List.dropWhile_cons, h]

/-- A list whose head does not satisfy `p` is unchanged by `dropWhile p`. -/
theorem dropWhile_eq_self_of_head (p : Char → Bool) (l : Text)
    (h : ∀ c, l.head? = some c → p c = false) : l.dropWhile p = l := by
  cases l with
  | nil => rfl
  | cons c cs => simp [List.dropWhile_cons, h c rfl]

/-- The head of `l.dropWhile p` never satisfies `p`. -/
theorem head_dropWhile_false (p : Char → Bool) (l : Text) :
    ∀ c, (l.dropWhile p).head? = some c → p c = false := by
  induction l with
  | nil => intro c h; simp at h
  | cons x xs ih =>
    intro c h
    by_cases hx : p x
    · exact ih c (by simpa [List.dropWhile_cons, hx] using h)
    · simp [List.dropWhile_cons, hx] at h
      subst h
      simpa using hx

/-- The head of `trimL s` is not whitespace. -/
theorem head_trimL_false (s : Text) :
    ∀ c, (trimL s).head? = some c → Char.isWhitespace c = false := by
  intro c hc
  unfold trimL at hc
  obtain ⟨t, ht⟩ :=
    List.dropWhile_suffix (l := (s.dropWhile Char.isWhitespace).reverse)
      (p := Char.isWhitespace)
  have hpre :
      (List.dropWhile Char.isWhitespace (s.dropWhile Char.isWhitespace).reverse).reverse
        ++ t.reverse = s.dropWhile Char.isWhitespace := by
    have h2 := congrArg List.reverse ht
    simpa [List.reverse_append] using h2
  apply head_dropWhile_false Char.isWhitespace s c
  rw [← hpre]
  cases hrev :
      (List.dropWhile Char.isWhitespace (s.dropWhile Char.isWhitespace).reverse).reverse with
  | nil => rw [hrev] at hc; simp at hc
  | cons a as =>
    rw [hrev] at hc
    simp only [List.head?_cons, Option.some.injEq] at hc
    rw [List.cons_append]
    simp [hc]

/-- `trimL` is idempotent. -/
theorem trimL_idem (s : Text) : trimL (trimL s) = trimL s := by
  have h1 : (trimL s).dropWhile Char.isWhitespace = trimL s :=
    dropWhile_eq_self_of_head _ _ (head_trimL_false s)
  show (((trimL s).dropWhile Char.isWhitespace).reverse.dropWhile
      Char.isWhitespace).reverse = trimL s
  rw [h1]
  have h2 : (trimL s).reverse.dropWhile Char.isWhitespace = (trimL s).reverse := by
    unfold trimL
    rw [List.reverse_reverse]
    exact dropWhile_dropWhile _ _
  rw [h2, List.reverse_reverse]

/-- `splitLines` always produces at least one line. -/
theorem splitLines_ne_nil (s : Text) : splitLines s ≠ [] := by
  cases s with
  | nil => simp [splitLines]
  | cons c cs =>
    rw [splitLines]
    by_cases h : c = '\n'
    · simp [h]
    · simp only [h, if_false]
      cases splitLines cs <;> simp

/-- `splitLines` produces a positive number of lines. -/
theorem splitLines_length_pos (s : Text) : 0 < (splitLines s).length :=
  List.length_pos.mpr (splitLines_ne_nil s)

end CodePatch

namespace CodePatch

/-- Lines produced by `splitLines` contain no newline character. -/
theorem no_newline_of_mem_splitLines (s : Text) :
    ∀ l ∈ splitLines s, '\n' ∉ l := by
  induction s with
  | nil =>
    intro l hl
    simp [splitLines] at hl
    simp [hl]
  | cons c cs ih =>
    intro l hl
    rw [splitLines] at hl
    by_cases h : c = '\n'
    · simp only [h, if_true] at hl
      rcases List.mem_cons.mp hl with h1 | h1
      · simp [h1]
      · exact ih l h1
    · simp only [h, if_false] at hl
      cases hsc : splitLines cs with
      | nil => exact absurd hsc (splitLines_ne_nil cs)
      | cons l0 ls =>
        rw [hsc] at hl
        rcases List.mem_cons.mp hl with h1 | h1
        · subst h1
          intro hmem
          rcases List.mem_cons.mp hmem with h2 | h2
          · exact h h2.symm
          · exact ih l0 (hsc ▸ List.mem_cons_self l0 ls) h2
        · exact ih l (hsc ▸ List.mem_cons_of_mem l0 h1)

/-- A newline-free text splits into the single line it is. -/
theorem splitLines_eq_single (l : Text) (h : '\n' ∉ l) : splitLines l = [l] := by
  induction l with
  | nil => rfl
  | cons c cs ih =>
    rw [splitLines]
    have hc : ¬(c = '\n') := fun hE => h (hE ▸ List.mem_cons_self c cs)
    simp only [hc, if_false]
    rw [ih (fun hm => h (List.mem_cons_of_mem c hm))]

/-- Splitting after a newline-free first line. -/
theorem splitLines_append_newline (l t : Text) (h : '\n' ∉ l) :
    splitLines (l ++ '\n' :: t) = l :: splitLines t := by
  induction l with
  | nil => simp [splitLines]
  | cons c cs ih =>
    have hc : ¬(c = '\n') := fun hE => h (hE ▸ List.mem_cons_self c cs)
    rw [List.cons_append, splitLines]
    simp only [hc, if_false]
    rw [ih (fun hm => h (List.mem_cons_of_mem c hm))]

/-- `splitLines` is a left inverse of `joinLines` on nonempty lists of
newline-free lines. -/
theorem splitLines_joinLines (ls : List Text) (hne : ls ≠ [])
    (h : ∀ l ∈ ls, '\n' ∉ l) : splitLines (joinLines ls) = ls := by
  induction ls with
  | nil => exact absurd rfl hne
  | cons l ls ih =>
    cases ls with
    | nil =>
      rw [joinLines]
      exact splitLines_eq_single l (h l (List.mem_cons_self l []))
    | cons l2 ls2 =>
      have hih : splitLines (joinLines (l2 :: ls2)) = l2 :: ls2 :=
        ih (fun hE => List.noConfusion hE)
          (fun x hx => h x (List.mem_cons_of_mem l hx))
      rw [joinLines,
        splitLines_append_newline l _ (h l (List.mem_cons_self l (l2 :: ls2))),
        hih]
      exact fun hE => List.noConfusion hE

end CodePatch

namespace CodePatch

/-- For an in-range window `[a, b)`, `spliceJS` removes exactly that line
range and splices the items in at `a`. -/
theorem spliceJS_eq_of_le {α : Type} (l : List α) (a b : Nat) (items : List α)
    (hab : a ≤ b) (hb : b ≤ l.length) :
    spliceJS l a (b - a) items = l.take a ++ items ++ l.drop b := by
  simp only [spliceJS]
  have h1 : min a l.length = a := Nat.min_eq_left (le_trans hab hb)
  have h2 : min (b - a) (l.length - a) = b - a :=
    Nat.min_eq_left (Nat.sub_le_sub_right hb a)
  rw [h1, h2]
  have h3 : a + (b - a) = b := Nat.add_sub_cancel' hab
  rw [h3]

/-- The length of an in-range slice. -/
theorem sliceJS_length {α : Type} (l : List α) (a n : Nat) (h : a + n ≤ l.length) :
    (sliceJS l a (a + n)).length = n := by
  unfold sliceJS
  rw [List.length_take, List.length_drop]
  omega

/-- The slice `[a, a + n)` is nonempty when `n > 0` and in range. -/
theorem sliceJS_ne_nil {α : Type} (l : List α) (a n : Nat) (h : a + n ≤ l.length)
    (hn : 0 < n) : sliceJS l a (a + n) ≠ [] := by
  intro hE
  have := sliceJS_length l a n h
  rw [hE] at this
  simp at this
  omega

/-- Entries of an in-range slice. -/
theorem sliceJS_getElem {α : Type} (l : List α) (d : α) (a n j : Nat) (h : a + n ≤ l.length)
    (hj : j < n) :
    (sliceJS l a (a + n)).getD j d = l.getD (a + j) d := by
  rw [List.getD_eq_getElem _ _ (show j < (sliceJS l a (a + n)).length by
        rw [sliceJS_length l a n h]; exact hj),
      List.getD_eq_getElem _ _ (show a + j < l.length by omega)]
  unfold sliceJS
  rw [List.getElem_take, List.getElem_drop]

end CodePatch

namespace CodePatch

/-- The DP row step preserves the length of the processed segment. -/
theorem levRowStep_length (c : Char) :
    ∀ (xs : Text) (ps : List Nat) (diag left : Nat),
      (levRowStep c xs ps diag left).length = min xs.length ps.length := by
  intro xs
  induction xs with
  | nil => intro ps diag left; simp [levRowStep]
  | cons x xs ih =>
    intro ps diag left
    cases ps with
    | nil => simp [levRowStep]
    | cons p ps =>
      rw [levRowStep]
      simp only [List.length_cons, ih]
      omega

/-- Entry bound for the DP row step: if the previous row entries are bounded
by the edit-distance bound `max i j`, so are the entries of the next row. -/
theorem levRowStep_bound (c : Char) :
    ∀ (xs : Text) (ps : List Nat) (r j0 diag left : Nat),
      ps.length = xs.length →
      diag ≤ max r j0 →
      left ≤ max (r + 1) j0 →
      (∀ k, k < ps.length → ps.getD k 0 ≤ max r (j0 + 1 + k)) →
      ∀ k, k < xs.length →
        (levRowStep c xs ps diag left).getD k 0 ≤ max (r + 1) (j0 + 1 + k) := by
  intro xs
  induction xs with
  | nil => intro ps r j0 diag left _ _ _ _ k hk; simp at hk
  | cons x xs ih =>
    intro ps r j0 diag left hlen hdiag hleft hps k hk
    cases ps with
    | nil => simp at hlen
    | cons p ps =>
      rw [levRowStep]
      have hp0 : p ≤ max r (j0 + 1) := by
        have := hps 0 (by simp)
        simpa using this
      have hcur :
          (if x = c then diag else min (diag + 1) (min (left + 1) (p + 1))) ≤
            max (r + 1) (j0 + 1) := by
        by_cases hx : x = c
        · simp only [hx, if_true]
          omega
        · simp only [hx, if_false]
          omega
      cases k with
      | zero => simpa using hcur
      | succ k =>
        simp only [List.getD_cons_succ]
        have hrec :=
          ih ps r (j0 + 1) p
            (if x = c then diag else min (diag + 1) (min (left + 1) (p + 1)))
            (by simpa using hlen) hp0 hcur
            (fun k hk => by
              have := hps (k + 1) (by simpa using Nat.succ_lt_succ hk)
              simpa [Nat.add_assoc, Nat.add_comm, Nat.add_left_comm] using this)
            k (by simpa using Nat.lt_of_succ_lt_succ hk)
        have hEq : j0 + 1 + 1 + k = j0 + 1 + (k + 1) := by omega
        rw [hEq] at hrec
        exact hrec

end CodePatch

namespace CodePatch

/-- Invariant of the row iteration of `levenshteinDistance`: after consuming
`cs`, the row still has `s1.length + 1` entries and entry `k` is at most
`max (r + cs.length) k`, where `r` is the index of the starting row. -/
theorem levRows_bound (s1 : Text) :
    ∀ (cs : Text) (row : List Nat) (r : Nat),
      row.length = s1.length + 1 →
      row.headD 0 = r →
      (∀ k, k < row.length → row.getD k 0 ≤ max r k) →
      (levRows s1 cs row).length = s1.length + 1 ∧
        ∀ k, k < s1.length + 1 →
          (levRows s1 cs row).getD k 0 ≤ max (r + cs.length) k := by
  intro cs
  induction cs with
  | nil =>
    intro row r hlen hhead hbound
    rw [levRows]
    exact ⟨hlen, fun k hk => by simpa using hbound k (by omega)⟩
  | cons c cs ih =>
    intro row r hlen hhead hbound
    rw [levRows]
    cases row with
    | nil => simp at hlen
    | cons h0 t =>
      have hh0 : h0 = r := by simpa using hhead
      have htlen : t.length = s1.length := by simpa using hlen
      have hstep :
          ∀ k, k < s1.length →
            (levRowStep c s1 t h0 (h0 + 1)).getD k 0 ≤ max (r + 1) (0 + 1 + k) := by
        apply levRowStep_bound c s1 t r 0 h0 (h0 + 1) htlen
        · simp [hh0]
        · omega
        · intro k hk
          have := hbound (k + 1) (by simp; omega)
          simp only [List.getD_cons_succ] at this
          omega
      have hnewlen :
          ((h0 + 1) :: levRowStep c s1 t h0 (h0 + 1)).length = s1.length + 1 := by
        simp [levRowStep_length, htlen]
      have hnewhead : ((h0 + 1) :: levRowStep c s1 t h0 (h0 + 1)).headD 0 = r + 1 := by
        simp [hh0]
      have hnewbound :
          ∀ k, k < ((h0 + 1) :: levRowStep c s1 t h0 (h0 + 1)).length →
            ((h0 + 1) :: levRowStep c s1 t h0 (h0 + 1)).getD k 0 ≤ max (r + 1) k := by
        intro k hk
        cases k with
        | zero => simp [hh0]
        | succ k =>
          simp only [List.getD_cons_succ]
          have hk' : k < s1.length := by
            rw [hnewlen] at hk
            omega
          have := hstep k hk'
          omega
      have hfin :=
        ih ((h0 + 1) :: levRowStep c s1 t h0 (h0 + 1)) (r + 1) hnewlen hnewhead hnewbound
      refine ⟨hfin.1, fun k hk => ?_⟩
      have := hfin.2 k hk
      have hL : r + 1 + cs.length = r + (c :: cs).length := by simp; omega
      rw [hL] at this
      exact this

end CodePatch

namespace CodePatch

/-- `getLastD` as an indexed access. -/
theorem getLastD_eq_getD (l : List Nat) :
    l.getLastD 0 = l.getD (l.length - 1) 0 := by
  rw [List.getLastD_eq_getLast?, List.getLast?_eq_getElem?, List.getD_eq_getElem?_getD]

/-- The Levenshtein distance is bounded by the larger string length. -/
theorem levenshteinDistance_le (a b : Text) :
    levenshteinDistance a b ≤ max a.length b.length := by
  unfold levenshteinDistance
  have hstart : (List.range (a.length + 1)).length = a.length + 1 := by simp
  have hhead : (List.range (a.length + 1)).headD 0 = 0 := by
    rw [List.range_succ_eq_map]
    simp
  have hbound : ∀ k, k < (List.range (a.length + 1)).length →
      (List.range (a.length + 1)).getD k 0 ≤ max 0 k := by
    intro k hk
    rw [List.length_range] at hk
    rw [List.getD_eq_getElem _ _ (by simpa using hk)]
    simp
  have h := levRows_bound a b (List.range (a.length + 1)) 0 hstart hhead hbound
  rw [getLastD_eq_getD _, h.1]
  have := h.2 a.length (by omega)
  simp only [Nat.add_sub_cancel]
  omega

end CodePatch

namespace CodePatch

/-- `similarityRatio` is nonnegative. -/
theorem similarityRatio_nonneg (a b : Text) : 0 ≤ similarityRatio a b := by
  unfold similarityRatio
  by_cases h : max a.length b.length = 0
  · simp [h]
  · simp only [h, if_false]
    have hd : (levenshteinDistance a b : ℚ) ≤ (max a.length b.length : Nat) := by
      exact_mod_cast levenshteinDistance_le a b
    have hpos : (0 : ℚ) < ((max a.length b.length : Nat) : ℚ) := by
      exact_mod_cast Nat.pos_of_ne_zero h
    have := div_le_one_of_le₀ hd (le_of_lt hpos)
    push_cast at this ⊢
    linarith

/-- `similarityRatio` is at most one. -/
theorem similarityRatio_le_one (a b : Text) : similarityRatio a b ≤ 1 := by
  unfold similarityRatio
  by_cases h : max a.length b.length = 0
  · simp [h]
  · simp only [h, if_false]
    have hnn : (0 : ℚ) ≤ (levenshteinDistance a b : ℚ) / ((max a.length b.length : Nat) : ℚ) := by
      apply div_nonneg <;> positivity
    push_cast at hnn ⊢
    linarith

/-- The summed pairwise similarities lie between `0` and the number of
compared pairs. -/
theorem zipWith_sim_sum_bounds :
    ∀ (l1 l2 : List Text),
      0 ≤ (List.zipWith similarityRatio l1 l2).sum ∧
        (List.zipWith similarityRatio l1 l2).sum ≤
          ((List.zipWith similarityRatio l1 l2).length : ℚ) := by
  intro l1
  induction l1 with
  | nil => intro l2; simp
  | cons a l1 ih =>
    intro l2
    cases l2 with
    | nil => simp
    | cons b l2 =>
      obtain ⟨h0, h1⟩ := ih l2
      constructor
      · simp only [List.zipWith_cons_cons, List.sum_cons]
        have := similarityRatio_nonneg a b
        linarith
      · simp only [List.zipWith_cons_cons, List.sum_cons, List.length_cons]
        have := similarityRatio_le_one a b
        push_cast
        linarith

/-- `linesSimilarity` of nonempty line lists lies in `[0, 1]`. -/
theorem linesSimilarity_bounds (l1 l2 : List Text) (h1 : l1 ≠ []) (h2 : l2 ≠ []) :
    0 ≤ linesSimilarity l1 l2 ∧ linesSimilarity l1 l2 ≤ 1 := by
  obtain ⟨hs0, hs1⟩ := zipWith_sim_sum_bounds l1 l2
  have hzlen : (List.zipWith similarityRatio l1 l2).length = min l1.length l2.length := by
    simp
  have hp1 : 0 < l1.length := List.length_pos.mpr h1
  have hp2 : 0 < l2.length := List.length_pos.mpr h2
  have hminpos : 0 < min l1.length l2.length := by omega
  rw [hzlen] at hs1
  unfold linesSimilarity
  by_cases hne : l1.length ≠ l2.length
  · rw [if_pos hne]
    have hminQ : (0 : ℚ) < ((min l1.length l2.length : Nat) : ℚ) := by
      exact_mod_cast hminpos
    have hmaxQ : (0 : ℚ) < ((max l1.length l2.length : Nat) : ℚ) := by
      have : 0 < max l1.length l2.length := by omega
      exact_mod_cast this
    have hmaxmin : ((min l1.length l2.length : Nat) : ℚ) ≤ ((max l1.length l2.length : Nat) : ℚ) :=
      Nat.cast_le.mpr (by omega)
    have hfrac0 :
        0 ≤ (List.zipWith similarityRatio l1 l2).sum / ((min l1.length l2.length : Nat) : ℚ) :=
      div_nonneg hs0 (le_of_lt hminQ)
    have hfrac1 :
        (List.zipWith similarityRatio l1 l2).sum / ((min l1.length l2.length : Nat) : ℚ) ≤ 1 :=
      div_le_one_of_le₀ hs1 (le_of_lt hminQ)
    have hdiffQ :
        0 ≤ (((max l1.length l2.length : Nat) : ℚ) - ((min l1.length l2.length : Nat) : ℚ)) /
          ((max l1.length l2.length : Nat) : ℚ) :=
      div_nonneg (by linarith) (le_of_lt hmaxQ)
    have hdiffQ1 :
        (((max l1.length l2.length : Nat) : ℚ) - ((min l1.length l2.length : Nat) : ℚ)) /
          ((max l1.length l2.length : Nat) : ℚ) ≤ 1 :=
      div_le_one_of_le₀ (by linarith) (le_of_lt hmaxQ)
    constructor
    · apply mul_nonneg hfrac0
      linarith
    · apply mul_le_one₀ hfrac1 (by linarith) (by linarith)
  · rw [if_neg hne]
    push_neg at hne
    have hlenQ : (0 : ℚ) < (l1.length : ℚ) := by exact_mod_cast hp1
    have hminEq : min l1.length l2.length = l1.length := by omega
    rw [hminEq] at hs1
    constructor
    · exact div_nonneg hs0 (le_of_lt hlenQ)
    · exact div_le_one_of_le₀ hs1 (le_of_lt hlenQ)

end CodePatch

namespace CodePatch

/-- Both components of `calculateConfidence` on nonempty line lists lie in
`[0, 1]`, and the confidence component never exceeds the similarity bound. -/
theorem calculateConfidence_bounds (orig search : List Text) (fuzzy : Bool)
    (h1 : orig ≠ []) (h2 : search ≠ []) :
    0 ≤ (calculateConfidence orig search fuzzy).1 ∧
      (calculateConfidence orig search fuzzy).1 ≤ 1 ∧
      0 ≤ (calculateConfidence orig search fuzzy).2 ∧
      (calculateConfidence orig search fuzzy).2 ≤ 1 := by
  unfold calculateConfidence
  by_cases hm : linesMatchArr (normalizeLines orig) (normalizeLines search) = true
  · simp [hm]
  · rw [Bool.not_eq_true] at hm
    simp only [hm, Bool.false_eq_true, if_false]
    by_cases hf : fuzzy = true
    · simp only [hf, Bool.not_true, Bool.false_eq_true, if_false]
      have hn1 : normalizeLines orig ≠ [] := by
        simpa [normalizeLines] using h1
      have hn2 : normalizeLines search ≠ [] := by
        simpa [normalizeLines] using h2
      obtain ⟨hl0, hl1⟩ := linesSimilarity_bounds _ _ hn1 hn2
      set pen : ℚ :=
        if 0 < ((orig.length : ℤ) - (search.length : ℤ)).natAbs then
          (1/10) * (((orig.length : ℤ) - (search.length : ℤ)).natAbs : ℚ)
        else 0 with hpen
      have hpen0 : 0 ≤ pen := by
        rw [hpen]
        split
        · positivity
        · exact le_refl 0
      refine ⟨le_max_left 0 _, ?_, hl0, hl1⟩
      apply max_le
      · exact zero_le_one
      · linarith
    · rw [Bool.not_eq_true] at hf
      simp [hf]

end CodePatch

namespace CodePatch

/-- Membership in a fixed-window pass: exactly the in-range offsets whose
confidence clears the threshold. -/
theorem mem_windowPass_iff (fl bl : List Text) (fuzzy : Bool) (ctx len : Nat)
    (thresh : ℚ) (m : Match) :
    m ∈ windowPass fl bl fuzzy ctx len thresh ↔
      ∃ i, i + len ≤ fl.length ∧
        thresh ≤ (calculateConfidence (sliceJS fl i (i + len)) bl fuzzy).1 ∧
        m = mkMatch fl ctx i len
            (calculateConfidence (sliceJS fl i (i + len)) bl fuzzy).1
            (calculateConfidence (sliceJS fl i (i + len)) bl fuzzy).2 := by
  unfold windowPass
  rw [List.mem_filterMap]
  constructor
  · rintro ⟨i, hir, hsome⟩
    rw [List.mem_range] at hir
    simp only at hsome
    split at hsome
    · rename_i hth
      refine ⟨i, by omega, hth, ?_⟩
      exact (Option.some.injEq _ _).mp hsome |>.symm
    · exact absurd hsome (by simp)
  · rintro ⟨i, hi, hth, rfl⟩
    refine ⟨i, List.mem_range.mpr (by omega), ?_⟩
    simp only [hth, if_pos]

/-- Soundness of the emitted matches of one fixed-window pass. -/
theorem windowPass_sound (fl bl : List Text) (fuzzy : Bool) (ctx len : Nat)
    (thresh : ℚ) (m : Match) (hm : m ∈ windowPass fl bl fuzzy ctx len thresh)
    (hlen : 0 < len) (hbl : bl ≠ []) :
    m.endLine = m.startLine + len ∧ m.endLine ≤ fl.length ∧
      thresh ≤ m.confidence ∧ 0 ≤ m.confidence ∧ m.confidence ≤ 1 ∧
      0 ≤ m.similarity ∧ m.similarity ≤ 1 := by
  rw [mem_windowPass_iff] at hm
  obtain ⟨i, hi, hth, rfl⟩ := hm
  have hslice : sliceJS fl i (i + len) ≠ [] := sliceJS_ne_nil fl i len hi hlen
  obtain ⟨hc0, hc1, hs0, hs1⟩ := calculateConfidence_bounds _ bl fuzzy hslice hbl
  exact ⟨rfl, by simpa [mkMatch] using hi, hth, hc0, hc1, hs0, hs1⟩

end CodePatch

namespace CodePatch

/-- `keepFirstByAux` yields a sublist of its input. -/
theorem keepFirstByAux_sublist {α : Type} (same : α → α → Bool) :
    ∀ (l seen : List α), List.Sublist (keepFirstByAux same seen l) l := by
  intro l
  induction l with
  | nil => intro seen; simp [keepFirstByAux]
  | cons m ms ih =>
    intro seen
    rw [keepFirstByAux]
    by_cases h : seen.any (fun s => same m s) = true
    · rw [if_pos h]
      exact (ih seen).trans (List.sublist_cons_self m ms)
    · rw [if_neg h]
      exact List.Sublist.cons₂ m (ih (m :: seen))

/-- `keepFirstBy` yields a sublist of its input. -/
theorem keepFirstBy_sublist {α : Type} (same : α → α → Bool) (l : List α) :
    List.Sublist (keepFirstBy same l) l :=
  keepFirstByAux_sublist same l []

/-- Kept elements are not `same` as any previously seen element. -/
theorem mem_keepFirstByAux_not_seen {α : Type} (same : α → α → Bool) :
    ∀ (l seen : List α) (b : α), b ∈ keepFirstByAux same seen l →
      ∀ s ∈ seen, same b s = false := by
  intro l
  induction l with
  | nil => intro seen b hb; simp [keepFirstByAux] at hb
  | cons m ms ih =>
    intro seen b hb s hs
    rw [keepFirstByAux] at hb
    by_cases h : seen.any (fun s => same m s) = true
    · rw [if_pos h] at hb
      exact ih seen b hb s hs
    · rw [if_neg h] at hb
      rcases List.mem_cons.mp hb with hbm | hbm
      · subst hbm
        rw [List.any_eq_true] at h
        push_neg at h
        have := h s hs
        simpa using this
      · exact ih (m :: seen) b hbm s (List.mem_cons_of_mem m hs)

/-- Elements kept by `keepFirstBy` are pairwise distinct under `same`
(later elements are never `same` as earlier ones). -/
theorem keepFirstByAux_pairwise {α : Type} (same : α → α → Bool) :
    ∀ (l seen : List α),
      (keepFirstByAux same seen l).Pairwise (fun a b => same b a = false) := by
  intro l
  induction l with
  | nil => intro seen; simp [keepFirstByAux]
  | cons m ms ih =>
    intro seen
    rw [keepFirstByAux]
    by_cases h : seen.any (fun s => same m s) = true
    · rw [if_pos h]
      exact ih seen
    · rw [if_neg h]
      rw [List.pairwise_cons]
      refine ⟨?_, ih (m :: seen)⟩
      intro b hb
      exact mem_keepFirstByAux_not_seen same ms (m :: seen) b hb m
        (List.mem_cons_self m seen)

/-- `keepFirstBy` output is pairwise distinct under `same`. -/
theorem keepFirstBy_pairwise {α : Type} (same : α → α → Bool) (l : List α) :
    (keepFirstBy same l).Pairwise (fun a b => same b a = false) :=
  keepFirstByAux_pairwise same l []

/-- An element whose key occurs only once survives `keepFirstByAux` when it is
not `same` as anything already seen. -/
theorem mem_keepFirstByAux_of_unique {α : Type} (same : α → α → Bool)
    (hsym : ∀ a b, same a b = same b a) :
    ∀ (l seen : List α) (m : α), m ∈ l →
      (∀ m' ∈ l, same m' m = true → m' = m) →
      (∀ s ∈ seen, same m s = false) →
      m ∈ keepFirstByAux same seen l := by
  intro l
  induction l with
  | nil => intro seen m hm; simp at hm
  | cons x xs ih =>
    intro seen m hm huniq hseen
    rw [keepFirstByAux]
    rcases List.mem_cons.mp hm with hEq | hmem
    · subst hEq
      have hany : ¬(seen.any (fun s => same m s) = true) := by
        rw [List.any_eq_true]
        push_neg
        intro s hs
        simp [hseen s hs]
      rw [if_neg hany]
      exact List.mem_cons_self m _
    · by_cases hx : seen.any (fun s => same x s) = true
      · rw [if_pos hx]
        exact ih seen m hmem
          (fun m' hm' => huniq m' (List.mem_cons_of_mem x hm')) hseen
      · rw [if_neg hx]
        by_cases hxm : x = m
        · subst hxm
          exact List.mem_cons_self x _
        · apply List.mem_cons_of_mem
          apply ih (x :: seen) m hmem
            (fun m' hm' => huniq m' (List.mem_cons_of_mem x hm'))
          intro s hs
          rcases List.mem_cons.mp hs with hsx | hsx
          · subst hsx
            by_contra hc
            rw [Bool.not_eq_false, hsym] at hc
            exact hxm (huniq s (List.mem_cons_self s xs) hc)
          · exact hseen s hsx

/-- An element whose key occurs only once survives `keepFirstBy`. -/
theorem mem_keepFirstBy_of_unique {α : Type} (same : α → α → Bool)
    (hsym : ∀ a b, same a b = same b a) (l : List α) (m : α) (hm : m ∈ l)
    (huniq : ∀ m' ∈ l, same m' m = true → m' = m) :
    m ∈ keepFirstBy same l :=
  mem_keepFirstByAux_of_unique same hsym l [] m hm huniq (by simp)

end CodePatch

namespace CodePatch

/-- `insertSorted` contributes exactly one new element. -/
theorem mem_insertSorted {α : Type} (le : α → α → Bool) (a x : α) :
    ∀ l : List α, x ∈ insertSorted le a l ↔ x = a ∨ x ∈ l := by
  intro l
  induction l with
  | nil => simp [insertSorted]
  | cons b l ih =>
    rw [insertSorted]
    by_cases h : le a b
    · rw [if_pos h]
      simp only [List.mem_cons]
    · rw [if_neg h]
      simp only [List.mem_cons, ih]
      tauto

/-- `stableSort` does not change membership. -/
theorem mem_stableSort {α : Type} (le : α → α → Bool) (x : α) :
    ∀ l : List α, x ∈ stableSort le l ↔ x ∈ l := by
  intro l
  induction l with
  | nil => simp [stableSort]
  | cons a l ih =>
    rw [stableSort, mem_insertSorted]
    simp only [List.mem_cons, ih]

/-- The head of `insertSorted` is the inserted element or the old head. -/
theorem head?_insertSorted {α : Type} (le : α → α → Bool) (a : α) :
    ∀ l : List α, (insertSorted le a l).head? = some a ∨
      (insertSorted le a l).head? = l.head? := by
  intro l
  cases l with
  | nil => left; rfl
  | cons b l =>
    rw [insertSorted]
    by_cases h : le a b
    · left; simp [h]
    · right; rw [if_neg h]; rfl

/-- Inserting into a consecutive `le`-chain of a total boolean relation
yields an `le`-chain. -/
theorem chain'_insertSorted {α : Type} (le : α → α → Bool)
    (total : ∀ a b, le a b || le b a) (a : α) :
    ∀ l : List α, List.Chain' (fun x y => le x y = true) l →
      List.Chain' (fun x y => le x y = true) (insertSorted le a l) := by
  intro l
  induction l with
  | nil => intro _; simp [insertSorted]
  | cons b l ih =>
    intro hch
    rw [insertSorted]
    by_cases h : le a b
    · rw [if_pos h]
      rw [List.chain'_cons']
      refine ⟨?_, hch⟩
      intro y hy
      simp only [List.head?_cons, Option.mem_def, Option.some.injEq] at hy
      rw [← hy]
      exact h
    · rw [if_neg h]
      have hba : le b a = true := by
        have := total a b
        rw [Bool.or_eq_true] at this
        tauto
      rw [List.chain'_cons']
      constructor
      · intro y hy
        rcases head?_insertSorted le a l with hh | hh
        · rw [hh] at hy
          simp only [Option.mem_def, Option.some.injEq] at hy
          rw [← hy]
          exact hba
        · rw [hh] at hy
          exact (List.chain'_cons'.mp hch).1 y hy
      · exact ih (List.chain'_cons'.mp hch).2

/-- `stableSort` of a total boolean relation yields a consecutive chain. -/
theorem chain'_stableSort {α : Type} (le : α → α → Bool)
    (total : ∀ a b, le a b || le b a) :
    ∀ l : List α, List.Chain' (fun x y => le x y = true) (stableSort le l) := by
  intro l
  induction l with
  | nil => simp [stableSort]
  | cons a l ih => exact chain'_insertSorted le total a _ ih

/-- Inserting into an `le`-sorted list of a total and transitive boolean
relation keeps it sorted. -/
theorem pairwise_insertSorted {α : Type} (le : α → α → Bool)
    (trans : ∀ a b c, le a b → le b c → le a c)
    (total : ∀ a b, le a b || le b a) (a : α) :
    ∀ l : List α, l.Pairwise (fun x y => le x y = true) →
      (insertSorted le a l).Pairwise (fun x y => le x y = true) := by
  intro l
  induction l with
  | nil => intro _; simp [insertSorted]
  | cons b l ih =>
    intro hp
    rw [List.pairwise_cons] at hp
    rw [insertSorted]
    by_cases h : le a b
    · rw [if_pos h]
      rw [List.pairwise_cons]
      refine ⟨?_, List.pairwise_cons.mpr hp⟩
      intro y hy
      rcases List.mem_cons.mp hy with hyb | hyl
      · rw [hyb]; exact h
      · exact trans a b y h (hp.1 y hyl)
    · rw [if_neg h]
      have hba : le b a = true := by
        have := total a b
        rw [Bool.or_eq_true] at this
        tauto
      rw [List.pairwise_cons]
      constructor
      · intro y hy
        rcases (mem_insertSorted le a y l).mp hy with hya | hyl
        · rw [hya]; exact hba
        · exact hp.1 y hyl
      · exact ih hp.2

/-- `stableSort` of a total and transitive boolean relation sorts. -/
theorem pairwise_stableSort {α : Type} (le : α → α → Bool)
    (trans : ∀ a b c, le a b → le b c → le a c)
    (total : ∀ a b, le a b || le b a) :
    ∀ l : List α, (stableSort le l).Pairwise (fun x y => le x y = true) := by
  intro l
  induction l with
  | nil => simp [stableSort]
  | cons a l ih => exact pairwise_insertSorted le trans total a _ ih

/-- `insertSorted` permutes consing. -/
theorem insertSorted_perm {α : Type} (le : α → α → Bool) (a : α) :
    ∀ l : List α, List.Perm (insertSorted le a l) (a :: l) := by
  intro l
  induction l with
  | nil => simp [insertSorted]
  | cons b t ih =>
    rw [insertSorted]
    by_cases h : le a b
    · rw [if_pos h]
    · rw [if_neg h]
      exact (ih.cons b).trans (List.Perm.swap a b t)

/-- `stableSort` permutes its input. -/
theorem stableSort_perm {α : Type} (le : α → α → Bool) :
    ∀ l : List α, List.Perm (stableSort le l) l := by
  intro l
  induction l with
  | nil => simp [stableSort]
  | cons a l ih =>
    rw [stableSort]
    exact (insertSorted_perm le a (stableSort le l)).trans (ih.cons a)

end CodePatch

namespace CodePatch

namespace SP

/-- Membership in one context-anchored window pass: exactly the in-range
offsets passing the acceptance test and the confidence threshold. -/
theorem mem_windowPassSP_iff (fl bl : List Text) (fuzzy : Bool) (minC : ℚ)
    (ctx ws : Nat) (m : SPMatch) :
    m ∈ windowPass fl bl fuzzy minC ctx ws ↔
      ∃ i, i + ws ≤ fl.length ∧
        (2 ≤ findCommonPrefix bl fl i fuzzy + findCommonSuffix bl fl (i + ws - 1) fuzzy ∧
          (1 ≤ findCommonPrefix bl fl i fuzzy ∨ 1 ≤ findCommonSuffix bl fl (i + ws - 1) fuzzy)) ∧
        minC ≤ min 1
          ((min 1 (((findCommonPrefix bl fl i fuzzy + findCommonSuffix bl fl (i + ws - 1) fuzzy : Nat) : ℚ) / (bl.length : ℚ))) * (7/10) +
            ((ws : ℚ) / (bl.length : ℚ)) * (3/10)) ∧
        m = mkSPMatch fl ctx i ws
            (min 1
              ((min 1 (((findCommonPrefix bl fl i fuzzy + findCommonSuffix bl fl (i + ws - 1) fuzzy : Nat) : ℚ) / (bl.length : ℚ))) * (7/10) +
                ((ws : ℚ) / (bl.length : ℚ)) * (3/10)))
            (findCommonPrefix bl fl i fuzzy + findCommonSuffix bl fl (i + ws - 1) fuzzy) := by
  unfold windowPass
  rw [List.mem_filterMap]
  constructor
  · rintro ⟨i, hir, hsome⟩
    rw [List.mem_range] at hir
    simp only at hsome
    split at hsome
    · rename_i hacc
      split at hsome
      · rename_i hth
        refine ⟨i, by omega, hacc, hth, ?_⟩
        exact ((Option.some.injEq _ _).mp hsome).symm
      · exact absurd hsome (by simp)
    · exact absurd hsome (by simp)
  · rintro ⟨i, hi, hacc, hth, rfl⟩
    refine ⟨i, List.mem_range.mpr (by omega), ?_⟩
    simp only
    rw [if_pos hacc, if_pos hth]

/-- Soundness of the matches emitted by one context-anchored pass: the
acceptance conditions, the confidence formula, the threshold, and the
`[0, 1]` bounds all hold, phrased against the match's own line range. -/
theorem windowPassSP_sound (fl bl : List Text) (fuzzy : Bool) (minC : ℚ)
    (ctx ws : Nat) (m : SPMatch) (hm : m ∈ windowPass fl bl fuzzy minC ctx ws) :
    m.endLine = m.startLine + ws ∧ m.endLine ≤ fl.length ∧
      (2 ≤ findCommonPrefix bl fl m.startLine fuzzy +
          findCommonSuffix bl fl (m.startLine + ws - 1) fuzzy) ∧
      (1 ≤ findCommonPrefix bl fl m.startLine fuzzy ∨
        1 ≤ findCommonSuffix bl fl (m.startLine + ws - 1) fuzzy) ∧
      m.contextMatchLength =
        findCommonPrefix bl fl m.startLine fuzzy +
          findCommonSuffix bl fl (m.startLine + ws - 1) fuzzy ∧
      m.confidence = min 1
        ((min 1 ((m.contextMatchLength : ℚ) / (bl.length : ℚ))) * (7/10) +
          ((ws : ℚ) / (bl.length : ℚ)) * (3/10)) ∧
      minC ≤ m.confidence ∧ 0 ≤ m.confidence ∧ m.confidence ≤ 1 ∧
      m.similarity = m.confidence := by
  rw [mem_windowPassSP_iff] at hm
  obtain ⟨i, hi, hacc, hth, rfl⟩ := hm
  have hconf0 : (0 : ℚ) ≤ min 1
      ((min 1 (((findCommonPrefix bl fl i fuzzy + findCommonSuffix bl fl (i + ws - 1) fuzzy : Nat) : ℚ) / (bl.length : ℚ))) * (7/10) +
        ((ws : ℚ) / (bl.length : ℚ)) * (3/10)) := by
    apply le_min zero_le_one
    have hc : (0 : ℚ) ≤ min 1 (((findCommonPrefix bl fl i fuzzy + findCommonSuffix bl fl (i + ws - 1) fuzzy : Nat) : ℚ) / (bl.length : ℚ)) := by
      apply le_min zero_le_one
      positivity
    have hs : (0 : ℚ) ≤ ((ws : ℚ) / (bl.length : ℚ)) := by positivity
    nlinarith
  refine ⟨rfl, by simpa [mkSPMatch] using hi, hacc.1, hacc.2, rfl, rfl, hth, hconf0,
    min_le_left _ _, rfl⟩

end SP

end CodePatch

namespace CodePatch

namespace SP

/-- Every match accumulated by `windowLoop` is either inherited from the
accumulator or produced by a pass at one of the visited window sizes
`ws, ws - 1, ..., ws - fuel + 1`. -/
theorem mem_windowLoop (fl bl : List Text) (fuzzy : Bool) (minC : ℚ) (ctx : Nat) :
    ∀ (fuel ws : Nat) (acc : List SPMatch) (m : SPMatch),
      m ∈ windowLoop fl bl fuzzy minC ctx fuel ws acc →
      m ∈ acc ∨ ∃ w, ws + 1 ≤ w + fuel ∧ w ≤ ws ∧ m ∈ windowPass fl bl fuzzy minC ctx w := by
  intro fuel
  induction fuel with
  | zero => intro ws acc m hm; exact Or.inl hm
  | succ fuel ih =>
    intro ws acc m hm
    rw [windowLoop] at hm
    by_cases hbr : breakEarly (acc ++ windowPass fl bl fuzzy minC ctx ws) = true
    · rw [if_pos hbr] at hm
      rcases List.mem_append.mp hm with h | h
      · exact Or.inl h
      · exact Or.inr ⟨ws, by omega, le_refl ws, h⟩
    · rw [if_neg hbr] at hm
      rcases ih (ws - 1) _ m hm with h | ⟨w, hw1, hw2, hw3⟩
      · rcases List.mem_append.mp h with h | h
        · exact Or.inl h
        · exact Or.inr ⟨ws, by omega, le_refl ws, h⟩
      · exact Or.inr ⟨w, by omega, by omega, hw3⟩

/-- Every match returned by `SP.findMatches` comes from a pass at some window
size between `max 3 (⌊N/2⌋)` and the block length `N`. -/
theorem mem_findMatches (fileContent codeBlock : Text) (opts : PatchOptions)
    (m : SPMatch) (hm : m ∈ findMatches fileContent codeBlock opts) :
    ∃ w, max 3 ((splitLines (normalizeLineEndings (trimL codeBlock))).length / 2) ≤ w ∧
      w ≤ (splitLines (normalizeLineEndings (trimL codeBlock))).length ∧
      m ∈ windowPass (splitLines (normalizeLineEndings fileContent))
            (splitLines (normalizeLineEndings (trimL codeBlock)))
            (opts.fuzzyMatch.getD true) (opts.minConfidence.getD (1/2))
            (opts.contextLines.getD 2) w := by
  unfold findMatches at hm
  by_cases hz : (splitLines (normalizeLineEndings (trimL codeBlock))).length = 0
  · rw [if_pos hz] at hm
    simp at hm
  · rw [if_neg hz] at hm
    rw [mem_stableSort] at hm
    have hm2 := (keepFirstBy_sublist sameRangeSP _).mem hm
    rcases mem_windowLoop _ _ _ _ _ _ _ _ _ hm2 with h | ⟨w, hw1, hw2, hw3⟩
    · simp at h
    · refine ⟨w, by omega, hw2, hw3⟩

end SP

end CodePatch

namespace CodePatch

/-- `sameRange` is symmetric. -/
theorem sameRange_symm (a b : Match) : sameRange a b = sameRange b a := by
  unfold sameRange
  rw [Bool.eq_iff_iff]
  simp only [Bool.and_eq_true, beq_iff_eq]
  exact ⟨fun ⟨h1, h2⟩ => ⟨h1.symm, h2.symm⟩, fun ⟨h1, h2⟩ => ⟨h1.symm, h2.symm⟩⟩

/-- `sameRangeSP` is symmetric. -/
theorem sameRangeSP_symm (a b : SPMatch) : SP.sameRangeSP a b = SP.sameRangeSP b a := by
  unfold SP.sameRangeSP
  rw [Bool.eq_iff_iff]
  simp only [Bool.and_eq_true, beq_iff_eq]
  exact ⟨fun ⟨h1, h2⟩ => ⟨h1.symm, h2.symm⟩, fun ⟨h1, h2⟩ => ⟨h1.symm, h2.symm⟩⟩

/-- Every match returned by `CP1.findMatches` is the output of one of its
three window passes. -/
theorem cp1_mem_findMatches (doc block : Text) (opts : PatchOptions) (m : Match)
    (hm : m ∈ CP1.findMatches doc block opts) :
    (splitLines (trimL block)).length ≠ 0 ∧
      (m ∈ windowPass (splitLines doc) (splitLines (trimL block))
          (opts.fuzzyMatch.getD true) (opts.contextLines.getD 2)
          (splitLines (trimL block)).length (opts.minConfidence.getD (3/5)) ∨
        (0 < (splitLines (trimL block)).length - 1 ∧
          m ∈ windowPass (splitLines doc) (splitLines (trimL block))
            (opts.fuzzyMatch.getD true) (opts.contextLines.getD 2)
            ((splitLines (trimL block)).length - 1)
            (opts.minConfidence.getD (3/5) + 1/20)) ∨
        m ∈ windowPass (splitLines doc) (splitLines (trimL block))
          (opts.fuzzyMatch.getD true) (opts.contextLines.getD 2)
          ((splitLines (trimL block)).length + 1)
          (opts.minConfidence.getD (3/5) + 1/20)) := by
  unfold CP1.findMatches at hm
  by_cases hz : (splitLines (trimL block)).length = 0
  · rw [if_pos hz] at hm
    simp at hm
  · rw [if_neg hz] at hm
    refine ⟨hz, ?_⟩
    unfold sortByConfidence at hm
    rw [mem_stableSort] at hm
    have hm2 := (keepFirstBy_sublist sameRange _).mem hm
    rcases List.mem_append.mp hm2 with h | h
    · exact Or.inl h
    · rcases List.mem_append.mp h with h | h
      · by_cases hg : 0 < (splitLines (trimL block)).length - 1
        · rw [if_pos hg] at h
          exact Or.inr (Or.inl ⟨hg, h⟩)
        · rw [if_neg hg] at h
          simp at h
      · exact Or.inr (Or.inr h)

/-- Range and score bounds for every match of `CP1.findMatches`. -/
theorem cp1_findMatches_sound (doc block : Text) (opts : PatchOptions) (m : Match)
    (hm : m ∈ CP1.findMatches doc block opts) :
    m.startLine ≤ m.endLine ∧ m.endLine ≤ (splitLines doc).length ∧
      0 ≤ m.confidence ∧ m.confidence ≤ 1 ∧
      0 ≤ m.similarity ∧ m.similarity ≤ 1 := by
  obtain ⟨hz, hcases⟩ := cp1_mem_findMatches doc block opts m hm
  have hbl : splitLines (trimL block) ≠ [] := splitLines_ne_nil _
  rcases hcases with h | ⟨hg, h⟩ | h
  · obtain ⟨hE, h2, _, h4, h5, h6, h7⟩ :=
      windowPass_sound _ _ _ _ _ _ m h (by omega) hbl
    exact ⟨by omega, h2, h4, h5, h6, h7⟩
  · obtain ⟨hE, h2, _, h4, h5, h6, h7⟩ :=
      windowPass_sound _ _ _ _ _ _ m h (by omega) hbl
    exact ⟨by omega, h2, h4, h5, h6, h7⟩
  · obtain ⟨hE, h2, _, h4, h5, h6, h7⟩ :=
      windowPass_sound _ _ _ _ _ _ m h (by omega) hbl
    exact ⟨by omega, h2, h4, h5, h6, h7⟩

/-- Range and score bounds for every match of `SP.findMatches`. -/
theorem sp_findMatches_sound (doc block : Text) (opts : PatchOptions) (m : SPMatch)
    (hm : m ∈ SP.findMatches doc block opts) :
    m.startLine ≤ m.endLine ∧
      m.endLine ≤ (splitLines (SP.normalizeLineEndings doc)).length ∧
      0 ≤ m.confidence ∧ m.confidence ≤ 1 ∧
      0 ≤ m.similarity ∧ m.similarity ≤ 1 := by
  obtain ⟨w, hw1, hw2, hw3⟩ := SP.mem_findMatches doc block opts m hm
  obtain ⟨hE, h2, _, _, _, _, _, h8, h9, h10⟩ :=
    SP.windowPassSP_sound _ _ _ _ _ _ m hw3
  refine ⟨by omega, h2, h8, h9, ?_, ?_⟩
  · rw [h10]; exact h8
  · rw [h10]; exact h9

end CodePatch

namespace CodePatch

/-- C2 (counterexample): the parser-based variant (`src/code-patcher.ts`) has
no empty-search check.  With an input whose parsed and trimmed search body is
empty (`"<<<<<<< SEARCH\n=======\ny\n>>>>>>> REPLACE"`), `patch` returns the
*no-match* error on the document `"x"` — not an `EmptyBlockError`-class
message — and even succeeds on the document `"a\n\nb"`, whose blank line
matches the empty search block exactly. -/
theorem cp2_empty_parsed_search_not_empty_error :
    ((CP2.parsePatchInput "<<<<<<< SEARCH\n=======\ny\n>>>>>>> REPLACE".toList).map
        (fun p => trimL p.search)) = some [] ∧
    (CP2.patch "x".toList "<<<<<<< SEARCH\n=======\ny\n>>>>>>> REPLACE".toList {}).success
        = false ∧
    (CP2.patch "x".toList "<<<<<<< SEARCH\n=======\ny\n>>>>>>> REPLACE".toList {}).error
        = some CP2.noMatchMsg ∧
    (CP2.patch "a\n\nb".toList "<<<<<<< SEARCH\n=======\ny\n>>>>>>> REPLACE".toList {}).success
        = true := by
  with_unfolding_all decide

/-- C2 (amended): the whole-block variants (`src/src/codePatcher.ts` and
`src/unnamed/part_000`) return, for every document and every empty or
all-whitespace block, a failed result with no matches and the dedicated
empty-block message, which differs from their no-match messages; the
parser-based variant performs no such check (see the counterexample). -/
theorem whole_block_empty_patch_spec (doc block : Text) (opts : PatchOptions)
    (h : trimL block = []) :
    CP1.patch doc block opts =
      { success := false, matches' := [], error := some CP1.emptyBlockMsg } ∧
    SP.patch doc block opts =
      { success := false, matches' := [], error := some SP.emptyMsg } ∧
    CP1.emptyBlockMsg ≠ CP1.noMatchMsg ∧ SP.emptyMsg ≠ SP.noMatchMsg := by
  refine ⟨?_, ?_, by decide, by decide⟩
  · unfold CP1.patch
    rw [if_pos h]
  · unfold SP.patch
    rw [if_pos h]

/-- Witness for C2's amended theorem at a concrete whitespace-only block. -/
theorem whole_block_empty_patch_spec_witness :
    CP1.patch "x".toList "  \n ".toList {} =
      { success := false, matches' := [], error := some CP1.emptyBlockMsg } ∧
    SP.patch "x".toList "  \n ".toList {} =
      { success := false, matches' := [], error := some SP.emptyMsg } ∧
    CP1.emptyBlockMsg ≠ CP1.noMatchMsg ∧ SP.emptyMsg ≠ SP.noMatchMsg :=
  whole_block_empty_patch_spec "x".toList "  \n ".toList {} (by decide)

end CodePatch

namespace CodePatch

/-- C4 (counterexample): with a successful patch and `matchIndex = -1`
(out of bounds from below), `applyPatch` and `previewPatch` of
`src/src/codePatcher.ts` do not return null: `result.matches[-1]` is
`undefined` and the subsequent property accesses throw. -/
theorem applyPatch_negative_index_throws :
    CP1.applyPatch "a".toList "a".toList (-1) {} = Except.error () ∧
    CP1.previewPatch "a".toList "a".toList (-1) {} = Except.error () ∧
    (CP1.patch "a".toList "a".toList {}).success = true := by
  with_unfolding_all decide

/-- C4 (amended): for both fixed-window variants, `applyPatch` and
`previewPatch` return null — and never throw — whenever the underlying
`patch` fails or `matchIndex` is at least the number of ranked matches; the
missing lower-bound check makes a negative `matchIndex` with a successful
patch throw instead (see the counterexample). -/
theorem applyPatch_null_contract (doc input : Text) (idx : Int)
    (opts : PatchOptions) :
    ((CP1.patch doc input opts).success = false ∨
        ((CP1.patch doc input opts).matches'.length : Int) ≤ idx →
      CP1.applyPatch doc input idx opts = Except.ok none ∧
      CP1.previewPatch doc input idx opts = Except.ok none) ∧
    ((CP2.patch doc input opts).success = false ∨
        ((CP2.patch doc input opts).matches'.length : Int) ≤ idx →
      CP2.applyPatch doc input idx opts = Except.ok none ∧
      CP2.previewPatch doc input idx opts = Except.ok none) := by
  constructor
  · intro h
    constructor
    · simp only [CP1.applyPatch]
      by_cases hA : (!(CP1.patch doc input opts).success
          || ((CP1.patch doc input opts).matches'.length == 0)) = true
      · rw [if_pos hA]
      · rw [if_neg hA]
        have hB : ((CP1.patch doc input opts).matches'.length : Int) ≤ idx := by
          rcases h with h | h
          · exact absurd (by rw [h]; rfl) hA
          · exact h
        rw [if_pos hB]
    · simp only [CP1.previewPatch]
      have hC : (!(CP1.patch doc input opts).success
          || ((CP1.patch doc input opts).matches'.length == 0)
          || decide (((CP1.patch doc input opts).matches'.length : Int) ≤ idx)) = true := by
        rcases h with h | h
        · rw [h]; rfl
        · simp [h]
      rw [if_pos hC]
  · intro h
    constructor
    · simp only [CP2.applyPatch]
      by_cases hA : (!(CP2.patch doc input opts).success
          || ((CP2.patch doc input opts).matches'.length == 0)) = true
      · rw [if_pos hA]
      · rw [if_neg hA]
        have hB : ((CP2.patch doc input opts).matches'.length : Int) ≤ idx := by
          rcases h with h | h
          · exact absurd (by rw [h]; rfl) hA
          · exact h
        rw [if_pos hB]
    · simp only [CP2.previewPatch]
      have hC : (!(CP2.patch doc input opts).success
          || ((CP2.patch doc input opts).matches'.length == 0)
          || decide (((CP2.patch doc input opts).matches'.length : Int) ≤ idx)) = true := by
        rcases h with h | h
        · rw [h]; rfl
        · simp [h]
      rw [if_pos hC]

/-- Witness for C4's amended theorem: an index past the end returns null on a
successful patch, and a failed parse returns null at index 0. -/
theorem applyPatch_null_contract_witness :
    CP1.applyPatch "a".toList "a".toList 5 {} = Except.ok none ∧
    CP1.previewPatch "a".toList "a".toList 5 {} = Except.ok none ∧
    CP2.applyPatch "a".toList "x".toList 0 {} = Except.ok none ∧
    CP2.previewPatch "a".toList "x".toList 0 {} = Except.ok none := by
  have h1 := (applyPatch_null_contract "a".toList "a".toList 5 {}).1
    (Or.inr (by with_unfolding_all decide))
  have h2 := (applyPatch_null_contract "a".toList "x".toList 0 {}).2
    (Or.inl (by with_unfolding_all decide))
  exact ⟨h1.1, h1.2, h2.1, h2.2⟩

end CodePatch

namespace CodePatch

/-- C5: for every document, in-range match and replacement text, both
`applyReplacement` implementations remove exactly the line range
`[startLine, endLine)`, splice the reindented replacement lines in at
`startLine`, and rejoin with single newlines; every non-blank replacement
line becomes `baseIndent ++ trimmed line` and blank lines pass through
unchanged.  (`CP1` splits the trimmed replacement text, `CP2` splits it
verbatim; the embedding is pure, so inputs are never mutated.) -/
theorem applyReplacement_splice_spec (doc rep : Text) (m : Match)
    (h1 : m.startLine ≤ m.endLine) (h2 : m.endLine ≤ (splitLines doc).length) :
    CP1.applyReplacement doc m rep =
      joinLines ((splitLines doc).take m.startLine
        ++ (splitLines (trimL rep)).map (reindent m.baseIndent)
        ++ (splitLines doc).drop m.endLine) ∧
    CP2.applyReplacement doc m rep =
      joinLines ((splitLines doc).take m.startLine
        ++ (splitLines rep).map (reindent m.baseIndent)
        ++ (splitLines doc).drop m.endLine) ∧
    (∀ line, trimL line = [] → reindent m.baseIndent line = line) ∧
    (∀ line, trimL line ≠ [] →
      reindent m.baseIndent line = m.baseIndent ++ trimL line) := by
  refine ⟨?_, ?_, ?_, ?_⟩
  · simp only [CP1.applyReplacement]
    rw [spliceJS_eq_of_le _ _ _ _ h1 h2]
  · simp only [CP2.applyReplacement]
    rw [spliceJS_eq_of_le _ _ _ _ h1 h2]
  · intro line h
    unfold reindent
    rw [if_pos h]
  · intro line h
    unfold reindent
    rw [if_neg h]

/-- Witness for C5 at a concrete document, match and replacement. -/
theorem applyReplacement_splice_spec_witness :
    CP1.applyReplacement "a\nb\nc".toList ⟨1, 2, "  ".toList, 1, [], [], 1⟩ "x".toList =
      joinLines ((splitLines "a\nb\nc".toList).take 1
        ++ (splitLines (trimL "x".toList)).map (reindent "  ".toList)
        ++ (splitLines "a\nb\nc".toList).drop 2) ∧
    CP2.applyReplacement "a\nb\nc".toList ⟨1, 2, "  ".toList, 1, [], [], 1⟩ "x".toList =
      joinLines ((splitLines "a\nb\nc".toList).take 1
        ++ (splitLines "x".toList).map (reindent "  ".toList)
        ++ (splitLines "a\nb\nc".toList).drop 2) := by
  have h := applyReplacement_splice_spec "a\nb\nc".toList "x".toList
    ⟨1, 2, "  ".toList, 1, [], [], 1⟩ (by decide) (by with_unfolding_all decide)
  exact ⟨h.1, h.2.1⟩

end CodePatch

namespace CodePatch

/-- C10: applying an empty replacement text does not delete the matched
range outright.  Splitting `""` yields the single blank line `[""]`, which
passes through unindented, so both `applyReplacement` implementations
replace the line range `[startLine, endLine)` by exactly one empty line, and
the resulting document still has a blank line at `startLine`. -/
theorem empty_replacement_single_blank_line (doc : Text) (m : Match)
    (h1 : m.startLine ≤ m.endLine) (h2 : m.endLine ≤ (splitLines doc).length) :
    CP1.applyReplacement doc m [] =
      joinLines ((splitLines doc).take m.startLine ++ [[]]
        ++ (splitLines doc).drop m.endLine) ∧
    CP2.applyReplacement doc m [] =
      joinLines ((splitLines doc).take m.startLine ++ [[]]
        ++ (splitLines doc).drop m.endLine) ∧
    (splitLines (CP1.applyReplacement doc m []))[m.startLine]? = some [] ∧
    (splitLines (CP2.applyReplacement doc m []))[m.startLine]? = some [] := by
  have hmap : (splitLines (trimL ([] : Text))).map (reindent m.baseIndent) = [[]] := by
    rfl
  have hmap2 : (splitLines ([] : Text)).map (reindent m.baseIndent) = [[]] := by
    rfl
  have e1 : CP1.applyReplacement doc m [] =
      joinLines ((splitLines doc).take m.startLine ++ [[]]
        ++ (splitLines doc).drop m.endLine) := by
    simp only [CP1.applyReplacement]
    rw [spliceJS_eq_of_le _ _ _ _ h1 h2, hmap]
  have e2 : CP2.applyReplacement doc m [] =
      joinLines ((splitLines doc).take m.startLine ++ [[]]
        ++ (splitLines doc).drop m.endLine) := by
    simp only [CP2.applyReplacement]
    rw [spliceJS_eq_of_le _ _ _ _ h1 h2, hmap2]
  have hsplit : splitLines (joinLines ((splitLines doc).take m.startLine ++ [[]]
      ++ (splitLines doc).drop m.endLine)) =
      (splitLines doc).take m.startLine ++ [[]] ++ (splitLines doc).drop m.endLine := by
    apply splitLines_joinLines
    · intro hE
      have := congrArg List.length hE
      simp at this
    · intro l hl
      rcases List.mem_append.mp hl with hl1 | hl1
      · rcases List.mem_append.mp hl1 with hl2 | hl2
        · exact no_newline_of_mem_splitLines doc l (List.mem_of_mem_take hl2)
        · rw [List.mem_singleton.mp hl2]
          simp
      · exact no_newline_of_mem_splitLines doc l (List.mem_of_mem_drop hl1)
  have hidx : ((splitLines doc).take m.startLine ++ [[]]
      ++ (splitLines doc).drop m.endLine)[m.startLine]? = some [] := by
    have hlt : m.startLine ≤ (splitLines doc).length := le_trans h1 h2
    have htake : ((splitLines doc).take m.startLine).length = m.startLine := by
      rw [List.length_take]
      omega
    rw [List.append_assoc]
    rw [List.getElem?_append_right (by rw [htake])]
    rw [htake]
    simp
  refine ⟨e1, e2, ?_, ?_⟩
  · rw [e1, hsplit, hidx]
  · rw [e2, hsplit, hidx]

/-- Witness for C10 at a concrete document and match. -/
theorem empty_replacement_single_blank_line_witness :
    CP1.applyReplacement "a\nb\nc".toList ⟨1, 2, "  ".toList, 1, [], [], 1⟩ [] =
      joinLines ((splitLines "a\nb\nc".toList).take 1 ++ [[]]
        ++ (splitLines "a\nb\nc".toList).drop 2) ∧
    (splitLines (CP1.applyReplacement "a\nb\nc".toList
        ⟨1, 2, "  ".toList, 1, [], [], 1⟩ []))[1]? = some [] := by
  have h := empty_replacement_single_blank_line "a\nb\nc".toList
    ⟨1, 2, "  ".toList, 1, [], [], 1⟩ (by decide) (by with_unfolding_all decide)
  exact ⟨h.1, h.2.2.1⟩

end CodePatch

namespace CodePatch

/-- A successful `firstIdx` is an in-range occurrence of the pattern. -/
theorem firstIdx_sound (pat : Text) :
    ∀ (s : Text) (i : Nat), firstIdx pat s = some i →
      pat.isPrefixOf (s.drop i) = true ∧ i + pat.length ≤ s.length := by
  intro s
  induction s with
  | nil =>
    intro i h
    rw [firstIdx] at h
    by_cases hp : pat.isEmpty = true
    · rw [if_pos hp] at h
      have hi : i = 0 := by
        have := (Option.some.injEq _ _).mp h
        omega
      have hpn : pat = [] := List.isEmpty_iff.mp hp
      subst hi
      subst hpn
      simp
    · rw [if_neg hp] at h
      exact absurd h (by simp)
  | cons c cs ih =>
    intro i h
    rw [firstIdx] at h
    by_cases hp : pat.isPrefixOf (c :: cs) = true
    · rw [if_pos hp] at h
      have hi : i = 0 := by
        have := (Option.some.injEq _ _).mp h
        omega
      subst hi
      refine ⟨by simpa using hp, ?_⟩
      have := (List.isPrefixOf_iff_prefix.mp hp).length_le
      simpa using this
    · rw [if_neg hp] at h
      rcases Option.map_eq_some'.mp h with ⟨i', hi', hadd⟩
      obtain ⟨hpre, hlen⟩ := ih i' hi'
      subst hadd
      refine ⟨by simpa using hpre, ?_⟩
      simp only [List.length_cons]
      omega

/-- For in-range, ordered indices `substringJS` is the plain slice. -/
theorem substringJS_of_le (s : Text) (a b : Nat) (hab : a ≤ b)
    (hb : b ≤ s.length) : substringJS s a b = (s.drop a).take (b - a) := by
  simp only [substringJS]
  rw [Nat.min_eq_left (le_trans hab hb), Nat.min_eq_left hb,
    Nat.min_eq_left hab, Nat.max_eq_right hab]

/-- C3 (amended): `parseLegacyFormat` (the `parsePatchInput` of
`src/code-patcher.ts` and the `parseLegacyFormat` of `src/unnamed/part_001`)
returns null exactly when one of the three markers is absent; marker *order*
is not validated (see the counterexample).  When the first occurrences are in
order, `search` is the trimmed text strictly between the end of the first
`<<<<<<< SEARCH` and the first `=======`, and `replace` the trimmed text
between the end of that `=======` and the first `>>>>>>> REPLACE`. -/
theorem parseLegacyFormat_spec :
    (∀ input : Text,
      (firstIdx searchMarker input = none ∨ firstIdx dividerMarker input = none ∨
        firstIdx replaceMarker input = none) → parseLegacyFormat input = none) ∧
    (∀ input : Text, (firstIdx searchMarker input).isSome = true →
      (firstIdx dividerMarker input).isSome = true →
      (firstIdx replaceMarker input).isSome = true →
      (parseLegacyFormat input).isSome = true) ∧
    (∀ (input : Text) (i1 i2 i3 : Nat),
      firstIdx searchMarker input = some i1 →
      firstIdx dividerMarker input = some i2 →
      firstIdx replaceMarker input = some i3 →
      i1 + 14 ≤ i2 → i2 + 7 ≤ i3 →
      parseLegacyFormat input =
        some ⟨trimL ((input.drop (i1 + 14)).take (i2 - (i1 + 14))),
              trimL ((input.drop (i2 + 7)).take (i3 - (i2 + 7)))⟩) := by
  refine ⟨?_, ?_, ?_⟩
  · intro input h
    unfold parseLegacyFormat
    have hc : (!includesJS input searchMarker || !includesJS input dividerMarker
        || !includesJS input replaceMarker) = true := by
      unfold includesJS
      rcases h with h | h | h <;> simp [h]
    rw [if_pos hc]
  · intro input h1 h2 h3
    unfold parseLegacyFormat
    have hc : ¬((!includesJS input searchMarker || !includesJS input dividerMarker
        || !includesJS input replaceMarker) = true) := by
      unfold includesJS
      simp [h1, h2, h3]
    rw [if_neg hc]
    simp
  · intro input i1 i2 i3 h1 h2 h3 h12 h23
    have hlen1 : searchMarker.length = 14 := rfl
    have hlen2 : dividerMarker.length = 7 := rfl
    obtain ⟨_, hb2⟩ := firstIdx_sound dividerMarker input i2 h2
    obtain ⟨_, hb3⟩ := firstIdx_sound replaceMarker input i3 h3
    have hlen2' : i2 ≤ input.length := by
      rw [hlen2] at hb2
      omega
    have hlen3' : i3 ≤ input.length := by
      have : replaceMarker.length = 15 := rfl
      rw [this] at hb3
      omega
    unfold parseLegacyFormat
    have hc : ¬((!includesJS input searchMarker || !includesJS input dividerMarker
        || !includesJS input replaceMarker) = true) := by
      unfold includesJS
      simp [h1, h2, h3]
    rw [if_neg hc]
    unfold indexOfD
    rw [h1, h2, h3]
    simp only [Option.getD_some, hlen1, hlen2]
    rw [substringJS_of_le input (i1 + 14) i2 h12 hlen2',
      substringJS_of_le input (i2 + 7) i3 h23 hlen3']

/-- C3 (counterexample): with the three markers all present but out of order
(`REPLACE` first, `SEARCH` last), `parseLegacyFormat` does not return null —
JS `substring` swaps its out-of-order indices, producing marker text as the
parsed bodies. -/
theorem legacy_markers_out_of_order_parses :
    firstIdx replaceMarker ">>>>>>> REPLACE\n=======\n<<<<<<< SEARCH".toList = some 0 ∧
    firstIdx searchMarker ">>>>>>> REPLACE\n=======\n<<<<<<< SEARCH".toList = some 24 ∧
    parseLegacyFormat ">>>>>>> REPLACE\n=======\n<<<<<<< SEARCH".toList =
      some ⟨"=======\n<<<<<<< SEARCH".toList, ">>>>>>> REPLACE\n=======".toList⟩ := by
  with_unfolding_all decide

/-- Witness for C3's amended theorem at a concrete well-formed input. -/
theorem parseLegacyFormat_spec_witness :
    parseLegacyFormat "<<<<<<< SEARCH\nold\n=======\nnew\n>>>>>>> REPLACE".toList =
      some ⟨trimL (("<<<<<<< SEARCH\nold\n=======\nnew\n>>>>>>> REPLACE".toList.drop (0 + 14)).take (19 - (0 + 14))),
            trimL (("<<<<<<< SEARCH\nold\n=======\nnew\n>>>>>>> REPLACE".toList.drop (19 + 7)).take (31 - (19 + 7)))⟩ :=
  parseLegacyFormat_spec.2.2 "<<<<<<< SEARCH\nold\n=======\nnew\n>>>>>>> REPLACE".toList
    0 19 31 (by with_unfolding_all decide) (by with_unfolding_all decide)
    (by with_unfolding_all decide) (by omega) (by omega)

end CodePatch

namespace CodePatch

set_option maxRecDepth 10000

/-- C6 (counterexample): on the ambiguity-scenario document with search block
`"console.log(data);"`, the `src/src/codePatcher.ts` `patch` (default
options) yields four matches, not two: the `+1` length-adjusted pass emits
`(1, 3)` and `(5, 7)` at confidence `0.65`, exactly its tightened threshold
`0.6 + 0.05`. -/
theorem cp1_ambiguity_four_matches :
    ((CP1.patch "function process(data)\x7b\n  console.log(data);\n\x7d\n\nfunction handle(data)\x7b\n  console.log(data);\n\x7d".toList
        "console.log(data);".toList {}).matches'.map
        (fun m => (m.startLine, m.endLine, m.confidence)))
      = [(1, 2, 1), (5, 6, 1), (1, 3, 13/20), (5, 7, 13/20)] ∧
    (CP1.patch "function process(data)\x7b\n  console.log(data);\n\x7d\n\nfunction handle(data)\x7b\n  console.log(data);\n\x7d".toList
        "console.log(data);".toList {}).matches'.length = 4 := by
  with_unfolding_all decide

/-- C6 (amended): the single-pass fixed-window variant
(`src/code-patcher.ts`, default `minConfidence = 0.7`) yields exactly two
matches on the ambiguity scenario, one per `console.log(data);` line
(0-indexed lines 1 and 5), both at confidence `1.0`, the earlier occurrence
ranked first; the `src/src/codePatcher.ts` variant returns those two first,
followed by the two length-adjusted matches of the counterexample. -/
theorem cp2_ambiguity_exactly_two_matches :
    (CP2.patch "function process(data)\x7b\n  console.log(data);\n\x7d\n\nfunction handle(data)\x7b\n  console.log(data);\n\x7d".toList
        "<<<<<<< SEARCH\nconsole.log(data);\n=======\nX\n>>>>>>> REPLACE".toList {}).success = true ∧
    ((CP2.patch "function process(data)\x7b\n  console.log(data);\n\x7d\n\nfunction handle(data)\x7b\n  console.log(data);\n\x7d".toList
        "<<<<<<< SEARCH\nconsole.log(data);\n=======\nX\n>>>>>>> REPLACE".toList {}).matches'.map
        (fun m => (m.startLine, m.endLine, m.confidence, m.similarity)))
      = [(1, 2, 1, 1), (5, 6, 1, 1)] := by
  with_unfolding_all decide

end CodePatch

namespace CodePatch

/-- C7: every match emitted by the context-anchored strategy satisfies the
acceptance conditions `contextMatchLength = prefixMatch + suffixMatch ≥ 2`
with at least one matching side, carries the confidence
`min(1, 0.7·min(1, contextMatchLength/N) + 0.3·(w/N))` for its window size
`w = endLine - startLine` over the `N` block lines, and clears
`minConfidence`. -/
theorem sp_candidate_acceptance_sound (doc block : Text) (opts : PatchOptions)
    (m : SPMatch) (hm : m ∈ SP.findMatches doc block opts) :
    let fl := splitLines (SP.normalizeLineEndings doc)
    let bl := splitLines (SP.normalizeLineEndings (trimL block))
    let fuzzy := opts.fuzzyMatch.getD true
    let w := m.endLine - m.startLine
    let pm := SP.findCommonPrefix bl fl m.startLine fuzzy
    let sm := SP.findCommonSuffix bl fl (m.startLine + w - 1) fuzzy
    2 ≤ pm + sm ∧ (1 ≤ pm ∨ 1 ≤ sm) ∧ m.contextMatchLength = pm + sm ∧
      m.confidence = min 1
        ((min 1 ((pm + sm : ℚ) / (bl.length : ℚ))) * (7/10) +
          ((w : ℚ) / (bl.length : ℚ)) * (3/10)) ∧
      opts.minConfidence.getD (1/2) ≤ m.confidence := by
  obtain ⟨w', hw1, hw2, hw3⟩ := SP.mem_findMatches doc block opts m hm
  obtain ⟨hE, hle, hacc1, hacc2, hcml, hconf, hth, _, _, _⟩ :=
    SP.windowPassSP_sound _ _ _ _ _ _ m hw3
  have hww : m.endLine - m.startLine = w' := by omega
  simp only [hww]
  refine ⟨hacc1, hacc2, hcml, ?_, hth⟩
  rw [hconf, hcml]
  push_cast
  ring_nf

/-- Witness for C7 at a concrete three-line document equal to the block. -/
theorem sp_candidate_acceptance_sound_witness :
    let fl := splitLines (SP.normalizeLineEndings "a\nb\nc".toList)
    let bl := splitLines (SP.normalizeLineEndings (trimL "a\nb\nc".toList))
    let m : SPMatch := ⟨0, 3, [], 1, [], [], 1, 6⟩
    let w := m.endLine - m.startLine
    let pm := SP.findCommonPrefix bl fl m.startLine true
    let sm := SP.findCommonSuffix bl fl (m.startLine + w - 1) true
    2 ≤ pm + sm ∧ (1 ≤ pm ∨ 1 ≤ sm) ∧ m.contextMatchLength = pm + sm ∧
      m.confidence = min 1
        ((min 1 ((pm + sm : ℚ) / (bl.length : ℚ))) * (7/10) +
          ((w : ℚ) / (bl.length : ℚ)) * (3/10)) ∧
      (1/2 : ℚ) ≤ m.confidence :=
  sp_candidate_acceptance_sound "a\nb\nc".toList "a\nb\nc".toList {}
    ⟨0, 3, [], 1, [], [], 1, 6⟩ (by with_unfolding_all decide)

end CodePatch

namespace CodePatch

/-- C8 (counterexample): the early break tests only `matches[0]` — the first
match found overall — so a high-confidence match found later at the current
window size does not stop the search.  On this document the window-6 match
`(10, 16)` has confidence `23/30 > 0.7`, yet the returned list also contains
the smaller-window matches `(20, 25)`, `(20, 24)` and `(20, 23)`. -/
theorem sp_early_termination_violated :
    ((SP.findMatches "aaaa\nbbbb\nj2\nj3\nj4\nj5\nj6\nj7\nj8\nj9\naaaa\nbbbb\njx\njy\neeee\nffff\nj16\nj17\nj18\nj19\naaaa\nbbbb\ncccc\njz\nffff".toList
        "aaaa\nbbbb\ncccc\ndddd\neeee\nffff".toList {}).map
        (fun m => (m.startLine, m.endLine, m.confidence)))
      = [(10, 16, 23/30), (20, 25, 43/60), (20, 24, 11/20), (20, 23, 1/2), (0, 6, 8/15)] ∧
    ((7 : ℚ)/10 < 23/30) := by
  with_unfolding_all decide

/-- C8 (amended): the loop stops before any smaller window size exactly when,
after finishing the current window size, the *first element of the
accumulated match list* (the earliest match found, not an arbitrary match of
the current size) exceeds confidence `0.7`. -/
theorem sp_windowLoop_break_spec (fl bl : List Text) (fuzzy : Bool) (minC : ℚ)
    (ctx fuel ws : Nat) (acc : List SPMatch) (m : SPMatch)
    (hfuel : 0 < fuel)
    (hhead : (acc ++ SP.windowPass fl bl fuzzy minC ctx ws).head? = some m)
    (hconf : (7/10 : ℚ) < m.confidence) :
    SP.windowLoop fl bl fuzzy minC ctx fuel ws acc =
      acc ++ SP.windowPass fl bl fuzzy minC ctx ws := by
  obtain ⟨fuel', rfl⟩ : ∃ f, fuel = f + 1 := ⟨fuel - 1, by omega⟩
  rw [SP.windowLoop]
  have hbr : SP.breakEarly (acc ++ SP.windowPass fl bl fuzzy minC ctx ws) = true := by
    unfold SP.breakEarly
    rw [hhead]
    simpa using hconf
  rw [if_pos hbr]

/-- Witness for C8's amended theorem: with an exact three-line block the
first pass already yields a confidence-1 match, and the loop performs no
further pass. -/
theorem sp_windowLoop_break_spec_witness :
    SP.windowLoop (splitLines "a\nb\nc".toList) (splitLines "a\nb\nc".toList)
        true (1/2) 2 5 3 [] =
      [] ++ SP.windowPass (splitLines "a\nb\nc".toList)
        (splitLines "a\nb\nc".toList) true (1/2) 2 3 :=
  sp_windowLoop_break_spec (splitLines "a\nb\nc".toList)
    (splitLines "a\nb\nc".toList) true (1/2) 2 5 3 []
    ⟨0, 3, [], 1, [], [], 1, 6⟩ (by omega)
    (by with_unfolding_all decide) (by with_unfolding_all decide)

end CodePatch

namespace CodePatch

/-- The `part_000` comparator relation is total. -/
theorem rankLE_total (a b : SPMatch) : (SP.rankLE a b || SP.rankLE b a) = true := by
  unfold SP.rankLE
  rw [abs_sub_comm b.confidence a.confidence]
  by_cases h : (1/10 : ℚ) < |a.confidence - b.confidence|
  · rw [if_pos h, if_pos h]
    rcases le_total a.confidence b.confidence with hle | hle <;> simp [hle]
  · rw [if_neg h, if_neg h]
    rcases Nat.le_total a.contextMatchLength b.contextMatchLength with hle | hle <;>
      simp [hle]

/-- `sortByConfidence` output is sorted by nonincreasing confidence. -/
theorem sortByConfidence_sorted (l : List Match) :
    (sortByConfidence l).Pairwise (fun a b => b.confidence ≤ a.confidence) := by
  unfold sortByConfidence
  have h := pairwise_stableSort (fun a b : Match => decide (b.confidence ≤ a.confidence))
    (fun a b c hab hbc => by
      simp only [decide_eq_true_eq] at hab hbc ⊢
      exact le_trans hbc hab)
    (fun a b => by
      rcases le_total a.confidence b.confidence with hle | hle <;> simp [hle])
    l
  exact h.imp (fun hab => by simpa using hab)

/-- `CP1.findMatches` output is sorted by nonincreasing confidence. -/
theorem cp1_findMatches_sorted (doc block : Text) (opts : PatchOptions) :
    (CP1.findMatches doc block opts).Pairwise
      (fun a b => b.confidence ≤ a.confidence) := by
  unfold CP1.findMatches
  by_cases hz : (splitLines (trimL block)).length = 0
  · rw [if_pos hz]
    simp
  · rw [if_neg hz]
    exact sortByConfidence_sorted _

/-- Distinctness under `same` survives a stable sort of a `keepFirstBy`
output. -/
theorem pairwise_distinct_of_sorted_keepFirst {α : Type} (le : α → α → Bool)
    (same : α → α → Bool) (hsym : ∀ a b, same a b = same b a) (l : List α) :
    (stableSort le (keepFirstBy same l)).Pairwise
      (fun a b => same b a = false) := by
  have hperm := stableSort_perm le (keepFirstBy same l)
  exact (keepFirstBy_pairwise same l).perm hperm.symm
    (fun {x y} hab => by rw [hsym]; exact hab)

/-- `sortByConfidence` after `keepFirstBy sameRange` yields matches pairwise
distinct by `(startLine, endLine)`. -/
theorem cp1_sorted_dedup_distinct (l : List Match) :
    (sortByConfidence (keepFirstBy sameRange l)).Pairwise
      (fun a b => a.startLine ≠ b.startLine ∨ a.endLine ≠ b.endLine) := by
  unfold sortByConfidence
  refine (pairwise_distinct_of_sorted_keepFirst _ sameRange sameRange_symm l).imp ?_
  intro a b hab
  unfold sameRange at hab
  rw [Bool.and_eq_false_iff] at hab
  rcases hab with hab | hab
  · left
    intro hE
    rw [hE] at hab
    simp at hab
  · right
    intro hE
    rw [hE] at hab
    simp at hab

/-- `CP1.findMatches` output is pairwise distinct by `(startLine, endLine)`. -/
theorem cp1_findMatches_distinct (doc block : Text) (opts : PatchOptions) :
    (CP1.findMatches doc block opts).Pairwise
      (fun a b => a.startLine ≠ b.startLine ∨ a.endLine ≠ b.endLine) := by
  unfold CP1.findMatches
  by_cases hz : (splitLines (trimL block)).length = 0
  · rw [if_pos hz]
    simp
  · rw [if_neg hz]
    exact cp1_sorted_dedup_distinct _

/-- The sorted, deduplicated `part_000` matches are pairwise distinct by
`(startLine, endLine)`. -/
theorem sp_sorted_dedup_distinct (l : List SPMatch) :
    (stableSort SP.rankLE (keepFirstBy SP.sameRangeSP l)).Pairwise
      (fun a b => a.startLine ≠ b.startLine ∨ a.endLine ≠ b.endLine) := by
  refine (pairwise_distinct_of_sorted_keepFirst _ SP.sameRangeSP sameRangeSP_symm l).imp ?_
  intro a b hab
  unfold SP.sameRangeSP at hab
  rw [Bool.and_eq_false_iff] at hab
  rcases hab with hab | hab
  · left
    intro hE
    rw [hE] at hab
    simp at hab
  · right
    intro hE
    rw [hE] at hab
    simp at hab

/-- `SP.findMatches` output is pairwise distinct by `(startLine, endLine)`. -/
theorem sp_findMatches_distinct (doc block : Text) (opts : PatchOptions) :
    (SP.findMatches doc block opts).Pairwise
      (fun a b => a.startLine ≠ b.startLine ∨ a.endLine ≠ b.endLine) := by
  unfold SP.findMatches
  by_cases hz : (splitLines (SP.normalizeLineEndings (trimL block))).length = 0
  · rw [if_pos hz]
    simp
  · rw [if_neg hz]
    exact sp_sorted_dedup_distinct _

/-- `SP.findMatches` output is consecutively ordered by the comparator. -/
theorem sp_findMatches_chain (doc block : Text) (opts : PatchOptions) :
    (SP.findMatches doc block opts).Chain' (fun a b => SP.rankLE a b = true) := by
  unfold SP.findMatches
  by_cases hz : (splitLines (SP.normalizeLineEndings (trimL block))).length = 0
  · rw [if_pos hz]
    simp
  · rw [if_neg hz]
    exact chain'_stableSort SP.rankLE rankLE_total _

/-- The matches of a `CP1.patch` result are `[]` or a `findMatches` output. -/
theorem cp1_patch_matches_cases (doc block : Text) (opts : PatchOptions) :
    (CP1.patch doc block opts).matches' = [] ∨
      (CP1.patch doc block opts).matches' =
        CP1.findMatches doc (trimL block) opts := by
  simp only [CP1.patch]
  by_cases h1 : trimL block = []
  · rw [if_pos h1]
    exact Or.inl rfl
  · rw [if_neg h1]
    by_cases h2 : (CP1.findMatches doc (trimL block) opts).length = 0
    · rw [if_pos h2]
      exact Or.inl rfl
    · rw [if_neg h2]
      exact Or.inr rfl

/-- The matches of an `SP.patch` result are `[]` or a `findMatches` output. -/
theorem sp_patch_matches_cases (doc block : Text) (opts : PatchOptions) :
    (SP.patch doc block opts).matches' = [] ∨
      (SP.patch doc block opts).matches' =
        SP.findMatches doc (trimL block) opts := by
  simp only [SP.patch]
  by_cases h1 : trimL block = []
  · rw [if_pos h1]
    exact Or.inl rfl
  · rw [if_neg h1]
    by_cases h2 : (SP.findMatches doc (trimL block) opts).length = 0
    · rw [if_pos h2]
      exact Or.inl rfl
    · rw [if_neg h2]
      exact Or.inr rfl

end CodePatch

namespace CodePatch

/-- C9 (counterexample): in the context-anchored variant the `0.1`-band
tie-break can rank a lower-confidence match first: here the returned list is
`[(10,13, 1/2, ctx 3), (0,6, 8/15, ctx 2), (10,16, 8/15, ctx 2)]`, whose
confidences are *not* nonincreasing (`1/2 < 8/15`). -/
theorem sp_rank_confidence_not_monotone :
    ((SP.patch "aaaa\nbbbb\nj2\nj3\nj4\nj5\nj6\nj7\nj8\nj9\naaaa\nbbbb\nffff\njd\nje\njf".toList
        "aaaa\nbbbb\ncccc\ndddd\neeee\nffff".toList {}).matches'.map
        (fun m => (m.startLine, m.endLine, m.confidence, m.contextMatchLength)))
      = [(10, 13, 1/2, 3), (0, 6, 8/15, 2), (10, 16, 8/15, 2)] ∧
    ((1 : ℚ)/2 < 8/15) := by
  with_unfolding_all decide

/-- C9 (amended): every `PatchResult` of the fixed-window variant `CP1` and
the context-anchored variant `SP` satisfies the range/score invariants
(`startLine ≤ endLine ≤ line count`, scores in `[0, 1]`) and pairwise
distinctness by `(startLine, endLine)`; `CP1` matches are sorted by
nonincreasing confidence, while `SP` matches are consecutively ordered by the
source comparator (confidence descending only beyond a `0.1` gap, otherwise
`contextMatchLength` descending), so confidence alone need not be
nonincreasing there (see the counterexample). -/
theorem match_list_invariants (doc block : Text) (opts : PatchOptions) :
    (∀ m ∈ (CP1.patch doc block opts).matches',
      m.startLine ≤ m.endLine ∧ m.endLine ≤ (splitLines doc).length ∧
      0 ≤ m.confidence ∧ m.confidence ≤ 1 ∧
      0 ≤ m.similarity ∧ m.similarity ≤ 1) ∧
    ((CP1.patch doc block opts).matches').Pairwise
      (fun a b => a.startLine ≠ b.startLine ∨ a.endLine ≠ b.endLine) ∧
    ((CP1.patch doc block opts).matches').Pairwise
      (fun a b => b.confidence ≤ a.confidence) ∧
    (∀ m ∈ (SP.patch doc block opts).matches',
      m.startLine ≤ m.endLine ∧
      m.endLine ≤ (splitLines (SP.normalizeLineEndings doc)).length ∧
      0 ≤ m.confidence ∧ m.confidence ≤ 1 ∧
      0 ≤ m.similarity ∧ m.similarity ≤ 1) ∧
    ((SP.patch doc block opts).matches').Pairwise
      (fun a b => a.startLine ≠ b.startLine ∨ a.endLine ≠ b.endLine) ∧
    ((SP.patch doc block opts).matches').Chain'
      (fun a b => SP.rankLE a b = true) := by
  rcases cp1_patch_matches_cases doc block opts with h1 | h1 <;>
    rcases sp_patch_matches_cases doc block opts with h2 | h2 <;>
    rw [h1, h2] <;>
    refine ⟨?_, ?_, ?_, ?_, ?_, ?_⟩ <;>
    first
      | (simp
         done)
      | (intro m hm
         exact cp1_findMatches_sound doc (trimL block) opts m hm)
      | exact cp1_findMatches_distinct doc (trimL block) opts
      | exact cp1_findMatches_sorted doc (trimL block) opts
      | (intro m hm
         exact sp_findMatches_sound doc (trimL block) opts m hm)
      | exact sp_findMatches_distinct doc (trimL block) opts
      | exact sp_findMatches_chain doc (trimL block) opts

/-- Witness for C9's amended theorem at a concrete document and block. -/
theorem match_list_invariants_witness :
    (∀ m ∈ (CP1.patch "a\nb".toList "a".toList {}).matches',
      m.startLine ≤ m.endLine ∧ m.endLine ≤ (splitLines "a\nb".toList).length ∧
      0 ≤ m.confidence ∧ m.confidence ≤ 1 ∧
      0 ≤ m.similarity ∧ m.similarity ≤ 1) ∧
    ((CP1.patch "a\nb".toList "a".toList {}).matches').Pairwise
      (fun a b => a.startLine ≠ b.startLine ∨ a.endLine ≠ b.endLine) ∧
    ((CP1.patch "a\nb".toList "a".toList {}).matches').Pairwise
      (fun a b => b.confidence ≤ a.confidence) ∧
    (∀ m ∈ (SP.patch "a\nb".toList "a".toList {}).matches',
      m.startLine ≤ m.endLine ∧
      m.endLine ≤ (splitLines (SP.normalizeLineEndings "a\nb".toList)).length ∧
      0 ≤ m.confidence ∧ m.confidence ≤ 1 ∧
      0 ≤ m.similarity ∧ m.similarity ≤ 1) ∧
    ((SP.patch "a\nb".toList "a".toList {}).matches').Pairwise
      (fun a b => a.startLine ≠ b.startLine ∨ a.endLine ≠ b.endLine) ∧
    ((SP.patch "a\nb".toList "a".toList {}).matches').Chain'
      (fun a b => SP.rankLE a b = true) :=
  match_list_invariants "a\nb".toList "a".toList {}

end CodePatch

namespace CodePatch

/-- A window whose per-line trimmed content equals the trimmed block lines is
an exact normalized match: `calculateConfidence` returns `(1, 1)`. -/
theorem exact_slice_confidence (fl bl : List Text) (k : Nat) (fuzzy : Bool)
    (hlen : k + bl.length ≤ fl.length)
    (hmatch : ∀ j, j < bl.length →
      trimL (fl.getD (k + j) []) = trimL (bl.getD j [])) :
    calculateConfidence (sliceJS fl k (k + bl.length)) bl fuzzy = (1, 1) := by
  have hslen : (sliceJS fl k (k + bl.length)).length = bl.length :=
    sliceJS_length fl k _ hlen
  have heq : normalizeLines (sliceJS fl k (k + bl.length)) = normalizeLines bl := by
    apply List.ext_getElem
    · simp [normalizeLines, hslen]
    · intro i h1 h2
      have hi : i < bl.length := by
        simpa [normalizeLines, hslen] using h1
      have hgd := sliceJS_getElem fl ([] : Text) k bl.length i hlen hi
      have hj := hmatch i hi
      rw [← hgd] at hj
      rw [List.getD_eq_getElem _ _ (show i < (sliceJS fl k (k + bl.length)).length by
            rw [hslen]; exact hi),
        List.getD_eq_getElem _ _ hi] at hj
      simp only [normalizeLines, List.getElem_map]
      exact hj
  have hbm : linesMatchArr (normalizeLines (sliceJS fl k (k + bl.length)))
      (normalizeLines bl) = true := by
    rw [heq]
    unfold linesMatchArr
    exact beq_self_eq_true _
  simp only [calculateConfidence]
  rw [if_pos hbm]

end CodePatch

namespace CodePatch

/-- The exact-window match at offset `k` survives into
`CP1.findMatches` (its `(startLine, endLine)` key is unique: the
length-adjusted passes use different window lengths). -/
theorem cp1_exact_in_findMatches (doc block : Text) (k : Nat)
    (hlen : k + (splitLines (trimL block)).length ≤ (splitLines doc).length)
    (hmatch : ∀ j, j < (splitLines (trimL block)).length →
      trimL ((splitLines doc).getD (k + j) []) =
        trimL ((splitLines (trimL block)).getD j [])) :
    mkMatch (splitLines doc) 2 k (splitLines (trimL block)).length 1 1 ∈
      CP1.findMatches doc (trimL block) {} := by
  have hN : 0 < (splitLines (trimL block)).length := splitLines_length_pos _
  have hcc := exact_slice_confidence (splitLines doc) (splitLines (trimL block))
    k true hlen hmatch
  have hmem : mkMatch (splitLines doc) 2 k (splitLines (trimL block)).length 1 1 ∈
      windowPass (splitLines doc) (splitLines (trimL block)) true 2
        (splitLines (trimL block)).length (3/5) := by
    rw [mem_windowPass_iff]
    refine ⟨k, hlen, ?_, ?_⟩
    · rw [hcc]
      norm_num
    · rw [hcc]
  unfold CP1.findMatches
  dsimp only
  simp only [Option.getD_none]
  rw [trimL_idem]
  rw [if_neg (by omega)]
  unfold sortByConfidence
  rw [mem_stableSort]
  apply mem_keepFirstBy_of_unique sameRange sameRange_symm
  · exact List.mem_append.mpr (Or.inl hmem)
  · intro m' hm' hsame
    have hs : m'.startLine = k ∧
        m'.endLine = k + (splitLines (trimL block)).length := by
      unfold sameRange at hsame
      rw [Bool.and_eq_true, beq_iff_eq, beq_iff_eq] at hsame
      exact hsame
    rcases List.mem_append.mp hm' with hE | hMP
    · rw [mem_windowPass_iff] at hE
      obtain ⟨i, hi, hth, rfl⟩ := hE
      have hik : i = k := hs.1
      subst hik
      rw [hcc]
    · rcases List.mem_append.mp hMP with hM | hP
      · by_cases hg : 0 < (splitLines (trimL block)).length - 1
        · rw [if_pos hg] at hM
          rw [mem_windowPass_iff] at hM
          obtain ⟨i, hi, hth, rfl⟩ := hM
          exfalso
          have h1 := hs.1
          have h2 := hs.2
          simp only [mkMatch] at h1 h2
          omega
        · rw [if_neg hg] at hM
          simp at hM
      · rw [mem_windowPass_iff] at hP
        obtain ⟨i, hi, hth, rfl⟩ := hP
        exfalso
        have h1 := hs.1
        have h2 := hs.2
        simp only [mkMatch] at h1 h2
        omega

/-- C1: if the document, per-line trimmed, contains the trimmed block lines
verbatim at offset `k` (and the block is not all whitespace, the case C2
pins), then `CP1.patch` with default options succeeds, its matches include
one at `[k, k + N)` with confidence and similarity `1.0`, and the
first-ranked match has confidence `1.0`. -/
theorem cp1_exact_match_ranks_first (doc block : Text) (k : Nat)
    (hne : trimL block ≠ [])
    (hlen : k + (splitLines (trimL block)).length ≤ (splitLines doc).length)
    (hmatch : ∀ j, j < (splitLines (trimL block)).length →
      trimL ((splitLines doc).getD (k + j) []) =
        trimL ((splitLines (trimL block)).getD j [])) :
    (CP1.patch doc block {}).success = true ∧
    (∃ m ∈ (CP1.patch doc block {}).matches',
      m.startLine = k ∧
      m.endLine = k + (splitLines (trimL block)).length ∧
      m.confidence = 1 ∧ m.similarity = 1) ∧
    (∃ m0, (CP1.patch doc block {}).matches'.head? = some m0 ∧
      m0.confidence = 1) := by
  have hfm := cp1_exact_in_findMatches doc block k hlen hmatch
  simp only [CP1.patch]
  rw [if_neg hne]
  have hms : ¬((CP1.findMatches doc (trimL block) {}).length = 0) := by
    intro h0
    rw [List.length_eq_zero] at h0
    rw [h0] at hfm
    simp at hfm
  rw [if_neg hms]
  refine ⟨rfl, ⟨_, hfm, rfl, rfl, rfl, rfl⟩, ?_⟩
  cases hms' : CP1.findMatches doc (trimL block) {} with
  | nil => exact absurd (by rw [hms']; rfl) hms
  | cons m0 rest =>
    refine ⟨m0, rfl, ?_⟩
    have hsorted := cp1_findMatches_sorted doc (trimL block) {}
    rw [hms', List.pairwise_cons] at hsorted
    have hle1 : m0.confidence ≤ 1 := by
      have := cp1_findMatches_sound doc (trimL block) {} m0
        (by rw [hms']; exact List.mem_cons_self m0 rest)
      exact this.2.2.2.1
    rw [hms'] at hfm
    rcases List.mem_cons.mp hfm with hEq | hmem2
    · rw [← hEq]
      rfl
    · have h1le : (1 : ℚ) ≤ m0.confidence := by
        have := hsorted.1 _ hmem2
        simpa [mkMatch] using this
      linarith
end CodePatch

namespace CodePatch

/-- Witness for C1 at a concrete document containing the block at line 1. -/
theorem cp1_exact_match_ranks_first_witness :
    (CP1.patch "x\ny\nz".toList "y".toList {}).success = true ∧
    (∃ m ∈ (CP1.patch "x\ny\nz".toList "y".toList {}).matches',
      m.startLine = 1 ∧
      m.endLine = 1 + (splitLines (trimL "y".toList)).length ∧
      m.confidence = 1 ∧ m.similarity = 1) ∧
    (∃ m0, (CP1.patch "x\ny\nz".toList "y".toList {}).matches'.head? = some m0 ∧
      m0.confidence = 1) :=
  cp1_exact_match_ranks_first "x\ny\nz".toList "y".toList 1
    (by with_unfolding_all decide) (by with_unfolding_all decide)
    (by with_unfolding_all decide)

end CodePatch
